import Mathlib

/-!
# Verification of the phaset-mcp file discovery and budgeted-selection engine

Shallow embedding of the core of the `phasetdev/phaset-mcp` repository:

* `matchPattern` / `findFiles` from `src/fileUtils.ts` (glob-style pattern
  matching via translation to a regular expression, and the recursive
  directory walk), and
* `truncateContent` / `estimateTokens` / `findAndReadFiles` /
  `collectRepoFiles` from `src/index.ts` (the priority-ranked,
  budget-limited file collector).

Strings are modelled as `List Char` internally (a JS string is a sequence
of code units; none of the claims depend on surrogate-pair behaviour).
`new RegExp` is modelled by a parser into a small regex AST returning
`Option` (`none` models a thrown `SyntaxError`), and `regex.test` by
Brzozowski-derivative matching of the (always fully anchored) expression.
-/

namespace PhasetMCP

/-! ## String helpers (models of the JS string operations used) -/

/-- The characters escaped by `matchPattern`'s first `.replace`:
the regex class `[.+?^${}()|[\]\\]` — every regex metacharacter except
`*` and `/`. -/
def metaChars : List Char := ['.', '+', '?', '^', '$', '{', '}', '(', ')', '|', '[', ']', '\\']

/-- Model of `String.prototype.replace(/[.+?^${}()|[\]\\]/g, '\\$&')`:
each metacharacter is prefixed with a backslash. -/
def escapeRegex (s : List Char) : List Char :=
  s.flatMap (fun c => if c ∈ metaChars then ['\\', c] else [c])

/-- Worker for `replaceAll`: `skip` counts characters still to swallow
from a replacement that already happened (so the scan never rescans
matched text). -/
def replaceAllGo (pat repl : List Char) : Nat → List Char → List Char
  | _, [] => []
  | 0, c :: cs =>
    if pat ≠ [] ∧ pat.isPrefixOf (c :: cs) then
      repl ++ replaceAllGo pat repl (pat.length - 1) cs
    else
      c :: replaceAllGo pat repl 0 cs
  | k + 1, _ :: cs => replaceAllGo pat repl k cs

/-- Model of `String.prototype.replace(pat, repl)` with a global literal
pattern: scan left to right, replace each non-overlapping occurrence,
never rescanning the replacement text. -/
def replaceAll (pat repl s : List Char) : List Char :=
  replaceAllGo pat repl 0 s

/-! ## matchPattern: glob → regex translation (`src/fileUtils.ts` lines 551-580) -/

def dsSlashMarker : List Char := "___DOUBLESTAR_SLASH___".data

def slashDsMarker : List Char := "___SLASH_DOUBLESTAR___".data

def dsMarker : List Char := "___DOUBLESTAR___".data

/-- The regex source string `matchPattern` constructs from a glob pattern:
escape metacharacters, substitute the three `**` forms through markers,
turn `*` into `[^/]*`, expand the markers, and anchor. -/
def toRegexChars (pattern : List Char) : List Char :=
  let s := escapeRegex pattern
  let s := replaceAll "**/".data dsSlashMarker s
  let s := replaceAll "/**".data slashDsMarker s
  let s := replaceAll "**".data dsMarker s
  let s := replaceAll "*".data "[^/]*".data s
  let s := replaceAll dsSlashMarker "(?:.*/)?".data s
  let s := replaceAll slashDsMarker "/.*".data s
  let s := replaceAll dsMarker ".*".data s
  '^' :: (s ++ ['$'])

/-! ## A small regex engine modelling `new RegExp` / `regex.test` -/

/-- Regex AST covering the dialect `matchPattern` can emit. -/
inductive Reg where
  | eps
  | lit (c : Char)
  | cls (neg : Bool) (cs : List Char)
  | dot
  | seq (a b : Reg)
  | alt (a b : Reg)
  | star (a : Reg)
deriving DecidableEq, Repr

/-- Concatenation of a list of regexes. -/
def catList (rs : List Reg) : Reg := rs.foldr Reg.seq Reg.eps

/-- JS `.` matches any character except a line terminator. -/
def isLineTerm (c : Char) : Bool :=
  c = '\n' || c = '\r' || c = Char.ofNat 0x2028 || c = Char.ofNat 0x2029

/-- Does a character class `[...]`/`[^...]` accept character `c`? -/
def clsMatches (neg : Bool) (cs : List Char) (c : Char) : Bool :=
  if neg then !(cs.contains c) else cs.contains c

/-- Parser mode: where the character-at-a-time regex parser stands. -/
inductive PMode where
  | normal
  | esc                                      -- just saw `\`
  | clsOpen                                  -- just saw `[`
  | clsBody (neg : Bool) (acc : List Char)   -- inside `[...]`
  | parenOpen                                -- just saw `(`
  | parenQ                                   -- just saw `(?`
deriving DecidableEq, Repr

/-- Parser state: mode, reversed atom list of the current group, and the
stack of enclosing groups. -/
structure PSt where
  mode : PMode
  cur : List Reg
  stk : List (List Reg)
deriving DecidableEq, Repr

/-- One normal-mode parsing step. Produces `none` on malformed input (a
quantifier with no preceding atom, a stray `)`, or a construct outside
the modelled dialect) — this models `new RegExp` throwing. -/
def normalStep (st : PSt) (c : Char) : Option PSt :=
  if c = '\\' then some ⟨.esc, st.cur, st.stk⟩
  else if c = '[' then some ⟨.clsOpen, st.cur, st.stk⟩
  else if c = '(' then some ⟨.parenOpen, st.cur, st.stk⟩
  else if c = ')' then
    match st.stk with
    | top :: stk' => some ⟨.normal, catList st.cur.reverse :: top, stk'⟩
    | [] => none
  else if c = '*' then
    match st.cur with
    | a :: cur' => some ⟨.normal, .star a :: cur', st.stk⟩
    | [] => none
  else if c = '?' then
    match st.cur with
    | a :: cur' => some ⟨.normal, .alt .eps a :: cur', st.stk⟩
    | [] => none
  else if c = '+' then
    match st.cur with
    | a :: cur' => some ⟨.normal, .seq a (.star a) :: cur', st.stk⟩
    | [] => none
  else if c = '.' then some ⟨.normal, .dot :: st.cur, st.stk⟩
  else if c = '^' ∨ c = '$' ∨ c = '|' ∨ c = '{' ∨ c = '}' then none
  else some ⟨.normal, .lit c :: st.cur, st.stk⟩

/-- One parsing step of the regex-source scanner. -/
def pstep : Option PSt → Char → Option PSt
  | none, _ => none
  | some st, c =>
    match st.mode with
    | .esc => some ⟨.normal, .lit c :: st.cur, st.stk⟩
    | .clsOpen =>
      if c = '^' then some ⟨.clsBody true [], st.cur, st.stk⟩
      else if c = ']' then some ⟨.normal, .cls false [] :: st.cur, st.stk⟩
      else some ⟨.clsBody false [c], st.cur, st.stk⟩
    | .clsBody neg acc =>
      if c = ']' then some ⟨.normal, .cls neg acc.reverse :: st.cur, st.stk⟩
      else some ⟨.clsBody neg (c :: acc), st.cur, st.stk⟩
    | .parenOpen =>
      if c = '?' then some ⟨.parenQ, st.cur, st.stk⟩
      else normalStep ⟨.normal, [], st.cur :: st.stk⟩ c
    | .parenQ =>
      if c = ':' then some ⟨.normal, [], st.cur :: st.stk⟩ else none
    | .normal => normalStep st c

/-- Final state acceptance: the scan must end in normal mode with no open
group (otherwise the source was malformed: dangling `\`, unterminated
class or group). -/
def parseFinish : Option PSt → Option Reg
  | some ⟨.normal, cur, []⟩ => some (catList cur.reverse)
  | _ => none

/-- Parse a regex source body (anchors stripped) into the AST;
`none` models `new RegExp` throwing on a malformed source. -/
def parseBody (s : List Char) : Option Reg :=
  parseFinish (s.foldl pstep (some ⟨.normal, [], []⟩))

/-- Model of `new RegExp(src)` for the fully anchored sources built by
`matchPattern` (`^` first, `$` last). A full-string `test` of such a
regex is matching of the parsed body. -/
def compileRegex (s : List Char) : Option Reg :=
  match s with
  | '^' :: rest =>
    match rest.getLast? with
    | some '$' => parseBody rest.dropLast
    | _ => none
  | _ => none

def Reg.nullable : Reg → Bool
  | .eps => true
  | .lit _ => false
  | .cls _ _ => false
  | .dot => false
  | .seq a b => a.nullable && b.nullable
  | .alt a b => a.nullable || b.nullable
  | .star _ => true

/-- The regex denoting the empty language (used as the failure derivative). -/
def Reg.void : Reg := .cls false []

def Reg.deriv : Reg → Char → Reg
  | .eps, _ => Reg.void
  | .lit c, x => if c = x then .eps else Reg.void
  | .cls n cs, x => if clsMatches n cs x then .eps else Reg.void
  | .dot, x => if isLineTerm x then Reg.void else .eps
  | .seq a b, x =>
    if a.nullable then .alt (.seq (a.deriv x) b) (b.deriv x) else .seq (a.deriv x) b
  | .alt a b, x => .alt (a.deriv x) (b.deriv x)
  | .star a, x => .seq (a.deriv x) (.star a)

/-- Full-string regex matching by Brzozowski derivatives. -/
def rmatch (r : Reg) (s : List Char) : Bool :=
  (s.foldl Reg.deriv r).nullable

/-- Model of `matchPattern(filePath, pattern)` from `src/fileUtils.ts`:
build the regex source, compile it (`none` = `new RegExp` threw), and
test the whole path against it. -/
def matchPattern (filePath pattern : String) : Option Bool :=
  match compileRegex (toRegexChars pattern.data) with
  | some r => some (rmatch r filePath.data)
  | none => none

/-! ## findFiles: the recursive directory walk (`src/fileUtils.ts` lines 472-549) -/

/-- `matchPattern` as consumed by the walk, which treats its result as a
Boolean. Theorem `matchPattern_total` below shows the translated regex
always compiles, so the `none` branch never fires. -/
def matchPatternB (filePath pattern : String) : Bool :=
  (matchPattern filePath pattern).getD false

/-- `s.replace(/\\/g, '/')` — path-separator normalization. -/
def normalizeSlashes (s : String) : String :=
  ⟨s.data.map (fun c => if c = '\\' then '/' else c)⟩

/-- `normalizePattern` from `src/fileUtils.ts`. -/
def normalizePattern (p : String) : String := normalizeSlashes p

/-- `shouldIgnore(filePath, ignorePatterns)`. -/
def shouldIgnore (filePath : String) (ignorePats : List String) : Bool :=
  ignorePats.any (fun p => matchPatternB (normalizeSlashes filePath) p)

/-- `matchesAnyPattern(filePath, patterns)`. -/
def matchesAnyPattern (filePath : String) (pats : List String) : Bool :=
  pats.any (fun p => matchPatternB (normalizeSlashes filePath) p)

/-- A directory tree: what the filesystem boundary
(`fs.readdir` with file types) presents to the walk. -/
inductive FSEntry where
  | file (name : String)
  | dir (name : String) (entries : List FSEntry)
deriving Repr

/-- `path.relative(baseDir, path.join(dir, entry.name))` for a walk
position recorded as the relative path `pre` of `dir` under `baseDir`. -/
def joinRel (pre name : String) : String :=
  if pre = "" then name else pre ++ "/" ++ name

/-- The body of `walk(dir, depth)`: iterate the directory entries; skip
ignored paths; recurse into directories (the callee's `depth > maxDepth`
guard is applied at the recursion site); record matching files.
`fuel` bounds the remaining recursion depth structurally; `findFiles`
supplies `fuel = maxDepth`, and since the walk only recurses while
`depth + 1 ≤ maxDepth` the invariant `fuel = maxDepth - depth` holds, so
the fuel never runs out before the `depth` guard prunes. -/
def walkEntries (ignorePats pats : List String) (maxDepth : Nat) :
    Nat → List FSEntry → String → Nat → List String
  | 0, entries, pre, depth =>
      entries.flatMap (fun e =>
        match e with
        | FSEntry.file n =>
          let rel := joinRel pre n
          if shouldIgnore rel ignorePats then []
          else if matchesAnyPattern rel pats then [rel] else []
        | FSEntry.dir n _ =>
          let rel := joinRel pre n
          if shouldIgnore rel ignorePats then []
          else if depth + 1 > maxDepth then []
          else [])
  | fuel + 1, entries, pre, depth =>
      entries.flatMap (fun e =>
        match e with
        | FSEntry.file n =>
          let rel := joinRel pre n
          if shouldIgnore rel ignorePats then []
          else if matchesAnyPattern rel pats then [rel] else []
        | FSEntry.dir n subs =>
          let rel := joinRel pre n
          if shouldIgnore rel ignorePats then []
          else if depth + 1 > maxDepth then []
          else walkEntries ignorePats pats maxDepth fuel subs rel (depth + 1))

/-- Worker for `dedupFirst`, carrying the set of already-seen paths. -/
def dedupFirstGo (seen : List String) : List String → List String
  | [] => []
  | x :: xs =>
    if seen.contains x then dedupFirstGo seen xs
    else x :: dedupFirstGo (x :: seen) xs

/-- First-occurrence deduplication: the observable content of the
`results : Set<string>` accumulator (a JS `Set` keeps insertion order). -/
def dedupFirst (l : List String) : List String := dedupFirstGo [] l

/-- Lexicographic comparison of strings by code unit — the order
`Array.prototype.sort()`'s default comparator induces on strings. -/
def lexLe : List Char → List Char → Bool
  | [], _ => true
  | _ :: _, [] => false
  | a :: as, b :: bs =>
    if a.toNat < b.toNat then true
    else if b.toNat < a.toNat then false
    else lexLe as bs

/-- The string order used to sort `findFiles` results. -/
def strLe (a b : String) : Bool := lexLe a.data b.data

/-- `findFiles(baseDir, patterns, {ignore, maxDepth})`: normalize the
patterns, walk from depth 0 (the walk's top-level `0 > maxDepth` guard
never fires for a natural `maxDepth`), and return
`Array.from(results).sort()` — the deduplicated matches in lexicographic
order (on a duplicate-free list every comparison sort agrees). -/
def findFiles (tree : List FSEntry) (patterns ignore : List String)
    (maxDepth : Nat) : List String :=
  let normalizedPatterns := patterns.map normalizePattern
  let normalizedIgnore := ignore.map normalizePattern
  (dedupFirst
    (walkEntries normalizedIgnore normalizedPatterns maxDepth maxDepth tree "" 0)).insertionSort
    (fun a b => strLe a b)

/-! ## The budgeted collector (`src/index.ts` lines 396-535) -/

def nullChar : Char := Char.ofNat 0

/-- Substring test: `String.prototype.includes`. -/
def occursIn (pat : List Char) : List Char → Bool
  | [] => pat.isEmpty
  | c :: cs => pat.isPrefixOf (c :: cs) || occursIn pat cs

/-- `String.prototype.includes` on our string model. -/
def strIncludes (s sub : String) : Bool := occursIn sub.data s.data

/-- Split a character list at `/` separators. -/
def splitSlashGo (acc : List Char) : List Char → List (List Char)
  | [] => [acc.reverse]
  | c :: cs =>
    if c = '/' then acc.reverse :: splitSlashGo [] cs
    else splitSlashGo (c :: acc) cs

/-- `path.basename` for the forward-slash relative paths the walk emits. -/
def basename (p : String) : String := ⟨(splitSlashGo [] p.data).getLastD []⟩

/-- `path.dirname` for the forward-slash relative paths the walk emits. -/
def dirname (p : String) : String :=
  let parts := splitSlashGo [] p.data
  if parts.length ≤ 1 then "." else ⟨(List.intersperse ['/'] parts.dropLast).flatten⟩

/-- `String.prototype.startsWith`. -/
def strStartsWith (s pre : String) : Bool := pre.data.isPrefixOf s.data

/-- `String.prototype.toLowerCase` (ASCII, which is all the collector
compares). -/
def strToLower (s : String) : String := ⟨s.data.map Char.toLower⟩

/-- `getFilePriority` from `src/index.ts`: lower number = higher priority. -/
def getFilePriority (filePath : String) : Nat :=
  let fileName := basename filePath
  let dirName := dirname filePath
  if fileName = "package.json" then 1
  else if strStartsWith (strToLower fileName) "readme" then 2
  else if ["go.mod", "pom.xml", "build.gradle", "Cargo.toml", "pyproject.toml", "setup.py",
      "requirements.txt", "Gemfile", "composer.json"].contains fileName then 3
  else if strStartsWith fileName "openapi." || strStartsWith fileName "swagger." ||
      strIncludes fileName "api-spec" then 4
  else if fileName = "Dockerfile" || fileName = "docker-compose.yml" ||
      fileName = "docker-compose.yaml" then 5
  else if strIncludes dirName ".github/workflows" || fileName = ".gitlab-ci.yml" ||
      fileName = "Jenkinsfile" then 6
  else if strIncludes filePath "terraform/" || strIncludes filePath "k8s/" ||
      strIncludes filePath "kubernetes/" then 8
  else 7

/-- `MAX_FILE_SIZE`: max characters kept per file. -/
def MAX_FILE_SIZE : Nat := 50000

/-- `MAX_TOTAL_TOKENS`: budget for all file contents combined. -/
def MAX_TOTAL_TOKENS : Nat := 15000

/-- `estimateTokens`: `Math.ceil(text.length / 4)`. -/
def estimateTokens (text : String) : Nat := (text.length + 3) / 4

/-- The notice `truncateContent` appends after the kept prefix. -/
def truncSuffix (maxChars : Nat) : String :=
  "\n\n... [Content truncated - file too large. Showing first " ++ toString maxChars
    ++ " characters]"

/-- `truncateContent(content, maxChars)`: content short enough is returned
verbatim; otherwise `content.substring(0, maxChars)` with the truncation
notice appended. -/
def truncateContent (content : String) (maxChars : Nat) : String :=
  if content.length ≤ maxChars then content
  else ⟨content.data.take maxChars⟩ ++ truncSuffix maxChars

/-- The fixed `ignore` list `findAndReadFiles` passes to `findFiles`. -/
def IGNORE_LIST : List String :=
  ["node_modules/**", ".git/**", "dist/**", "build/**", "target/**", ".next/**", "out/**",
   "vendor/**", ".venv/**", "venv/**", "__pycache__/**", "*.pyc", ".idea/**", ".vscode/**",
   "coverage/**", ".coverage/**"]

/-- The observable outcome of the read loop: accepted `(path, content)`
pairs in order, the `console.error` diagnostics in order, and the final
running token total. -/
structure ReadOutcome where
  results : List (String × String)
  diags : List String
  totalTokens : Nat
deriving Repr, DecidableEq

/-- Diagnostic for a skipped binary file. -/
def binaryDiag (m : String) : String := "Skipping " ++ m ++ ": appears to be binary"

/-- Diagnostic for a truncated oversized file. -/
def truncDiag (m : String) (len : Nat) : String :=
  "Truncating " ++ m ++ ": too large (" ++ toString len ++ " chars, keeping first "
    ++ toString MAX_FILE_SIZE ++ ")"

/-- Diagnostic for stopping at the aggregate token budget. -/
def budgetDiag (total resCount allFilesLen : Nat) : String :=
  "Reached token budget limit (" ++ toString total ++ "/" ++ toString MAX_TOTAL_TOKENS
    ++ "). Collected " ++ toString resCount ++ " files. Skipping remaining "
    ++ toString (allFilesLen - resCount) ++ " files."

/-- Diagnostic for an unreadable file (the underlying error text is
abstracted away). -/
def readErrDiag (m : String) : String := "Could not read " ++ m

/-- The `for` loop of `findAndReadFiles` over the priority-sorted
candidates. `readF` models `fs.readFile` (`none` = the read threw);
`allFilesLen` is `allFiles.length` (used only in the budget diagnostic);
`resCount` is `results.length` so far; `total` the running token count.
A candidate whose estimated cost would exceed the budget stops the loop
(`break`); binary and unreadable files are skipped (`continue`). -/
def readLoop (readF : String → Option String) (allFilesLen : Nat) :
    List String → Nat → Nat → ReadOutcome
  | [], _, total => ⟨[], [], total⟩
  | m :: rest, resCount, total =>
    match readF m with
    | none =>
      let o := readLoop readF allFilesLen rest resCount total
      ⟨o.results, readErrDiag m :: o.diags, o.totalTokens⟩
    | some content0 =>
      if content0.data.contains nullChar then
        let o := readLoop readF allFilesLen rest resCount total
        ⟨o.results, binaryDiag m :: o.diags, o.totalTokens⟩
      else
        let content := if MAX_FILE_SIZE < content0.length
          then truncateContent content0 MAX_FILE_SIZE else content0
        let tdiags := if MAX_FILE_SIZE < content0.length
          then [truncDiag m content0.length] else []
        let tokens := estimateTokens content
        if MAX_TOTAL_TOKENS < total + tokens then
          ⟨[], tdiags ++ [budgetDiag total resCount allFilesLen], total⟩
        else
          let o := readLoop readF allFilesLen rest (resCount + 1) (total + tokens)
          ⟨(m, content) :: o.results, tdiags ++ o.diags, o.totalTokens⟩

/-- Closing diagnostic of `findAndReadFiles`. -/
def collectedDiag (resCount total : Nat) : String :=
  "Collected " ++ toString resCount ++ " files (≈" ++ toString total ++ " tokens)"

/-- `findAndReadFiles(repoPath, patterns)`: discover candidates, dedupe
through `seenPaths`, rank by `getFilePriority` (a stable ascending sort,
as `Array.prototype.sort` is), then run the budgeted read loop. -/
def findAndReadFiles (tree : List FSEntry) (patterns : List String)
    (readF : String → Option String) : ReadOutcome :=
  let found := findFiles tree patterns IGNORE_LIST 10
  let allFiles := (dedupFirst found).map (fun m => (m, getFilePriority m))
  let sorted := allFiles.insertionSort (fun a b => a.2 ≤ b.2)
  let o := readLoop readF sorted.length (sorted.map Prod.fst) 0 0
  ⟨o.results, o.diags ++ [collectedDiag o.results.length o.totalTokens], o.totalTokens⟩

/-- The per-file record `collectRepoFiles` serializes for the caller:
note `sizeBytes` is the length of the (possibly already truncated)
`f.content`. -/
structure CollectedFile where
  path : String
  sizeBytes : Nat
  content : String
deriving Repr, DecidableEq

def minimalPatterns : List String :=
  ["package.json", "package-lock.json", "go.mod", "go.sum", "pom.xml", "build.gradle",
   "build.gradle.kts", "requirements.txt", "setup.py", "pyproject.toml", "Cargo.toml",
   "Cargo.lock", "Gemfile", "Gemfile.lock", "composer.json", "README.md", "README.txt",
   "README", "readme.md", "LICENSE", "LICENSE.txt", "LICENSE.md"]

def standardPatterns : List String :=
  minimalPatterns ++
  ["Dockerfile", "Dockerfile.*", "docker-compose.yml", "docker-compose.yaml", ".dockerignore",
   ".github/workflows/*.yml", ".github/workflows/*.yaml", ".gitlab-ci.yml",
   "azure-pipelines.yml", "Jenkinsfile", "openapi.yaml", "openapi.yml", "openapi.json",
   "swagger.json", "swagger.yaml", "swagger.yml", "api-spec.yaml", "api-spec.yml",
   "schema.graphql", "*.graphql", "CODEOWNERS", ".env.example", ".env.sample", "Makefile",
   "justfile"]

def deepPatterns : List String :=
  standardPatterns ++
  ["terraform/**/*.tf", "terraform/*.tf", "k8s/**/*.yaml", "k8s/**/*.yml",
   "kubernetes/**/*.yaml", "kubernetes/**/*.yml", ".k8s/**/*.yaml", "helm/**/*.yaml",
   "config/*.json", "config/*.yaml", "config/*.yml", ".circleci/config.yml",
   "bitbucket-pipelines.yml", "cloudbuild.yaml", "skaffold.yaml", "serverless.yml",
   "serverless.yaml"]

/-- `getFilePatterns(depth)` with its `patterns[depth] || standard` fallback. -/
def getFilePatterns (depth : String) : List String :=
  if depth = "minimal" then minimalPatterns
  else if depth = "standard" then standardPatterns
  else if depth = "deep" then deepPatterns
  else standardPatterns

/-- The `files` array `collectRepoFiles` returns to the caller
(`src/index.ts` lines 206-226): each collected file mapped to
`{path, sizeBytes: f.content.length, content: f.content}`. -/
def collectRepoFiles (tree : List FSEntry) (depth : String)
    (readF : String → Option String) : List CollectedFile :=
  (findAndReadFiles tree (getFilePatterns depth) readF).results.map
    (fun f => ⟨f.1, f.2.length, f.2⟩)

/-! ## Language semantics of the regex AST, and derivative correctness -/

/-- Kleene closure of a language. -/
inductive Star (L : List Char → Prop) : List Char → Prop where
  | nil : Star L []
  | app (u v : List Char) : L u → Star L v → Star L (u ++ v)

/-- The language denoted by a regex AST. -/
def Lang : Reg → List Char → Prop
  | .eps, s => s = []
  | .lit c, s => s = [c]
  | .cls n cs, s => ∃ c, s = [c] ∧ clsMatches n cs c = true
  | .dot, s => ∃ c, s = [c] ∧ isLineTerm c = false
  | .seq a b, s => ∃ u v, s = u ++ v ∧ Lang a u ∧ Lang b v
  | .alt a b, s => Lang a s ∨ Lang b s
  | .star a, s => Star (Lang a) s

theorem lang_void (s : List Char) : ¬ Lang Reg.void s := by
  rintro ⟨c, -, hc⟩
  simp [clsMatches, List.contains] at hc

theorem nullable_iff (r : Reg) : r.nullable = true ↔ Lang r [] := by
  induction r with
  | eps => simp [Reg.nullable, Lang]
  | lit c => simp [Reg.nullable, Lang]
  | cls n cs => simp [Reg.nullable, Lang]
  | dot => simp [Reg.nullable, Lang]
  | seq a b iha ihb =>
    simp only [Reg.nullable, Bool.and_eq_true, Lang, iha, ihb]
    constructor
    · rintro ⟨ha, hb⟩; exact ⟨[], [], rfl, ha, hb⟩
    · rintro ⟨u, v, huv, ha, hb⟩
      obtain ⟨hu, hv⟩ := List.append_eq_nil.mp huv.symm
      subst hu; subst hv; exact ⟨ha, hb⟩
  | alt a b iha ihb => simp [Reg.nullable, Lang, iha, ihb]
  | star a ih =>
    simp only [Reg.nullable, Lang, true_iff]
    exact Star.nil

theorem star_cons {L : List Char → Prop} :
    ∀ {w}, Star L w → ∀ {x : Char} {s}, w = x :: s →
      ∃ u v, s = u ++ v ∧ L (x :: u) ∧ Star L v := by
  intro w h
  induction h with
  | nil => intro x s hw; cases hw
  | app u v hu hv ih =>
    intro x s hw
    cases u with
    | nil =>
      simp only [List.nil_append] at hw
      exact ih hw
    | cons c u' =>
      simp only [List.cons_append, List.cons.injEq] at hw
      obtain ⟨hc, hs⟩ := hw
      subst hc
      exact ⟨u', v, hs.symm, hu, hv⟩

theorem deriv_iff (r : Reg) (x : Char) : ∀ s, Lang (r.deriv x) s ↔ Lang r (x :: s) := by
  induction r with
  | eps =>
    intro s
    simp only [Reg.deriv, Lang]
    exact ⟨fun h => absurd h (lang_void s), fun h => by cases h⟩
  | lit c =>
    intro s
    by_cases hc : c = x
    · subst hc
      simp [Reg.deriv, Lang]
    · simp only [Reg.deriv, if_neg hc]
      constructor
      · intro h; exact absurd h (lang_void s)
      · intro h
        simp only [Lang, List.cons.injEq] at h
        exact absurd h.1.symm hc
  | cls n cs =>
    intro s
    by_cases hc : clsMatches n cs x = true
    · simp only [Reg.deriv, if_pos hc, Lang]
      constructor
      · intro h; subst h; exact ⟨x, rfl, hc⟩
      · rintro ⟨c, hcs, -⟩
        simp only [List.cons.injEq] at hcs
        exact hcs.2
    · simp only [Reg.deriv, if_neg hc]
      constructor
      · intro h; exact absurd h (lang_void s)
      · rintro ⟨c, hcs, hm⟩
        simp only [Lang, List.cons.injEq] at hcs
        obtain ⟨hxc, -⟩ := hcs
        subst hxc
        exact absurd hm hc
  | dot =>
    intro s
    by_cases hl : isLineTerm x = true
    · simp only [Reg.deriv, if_pos hl]
      constructor
      · intro h; exact absurd h (lang_void s)
      · rintro ⟨c, hcs, hm⟩
        simp only [List.cons.injEq] at hcs
        obtain ⟨hxc, -⟩ := hcs
        subst hxc
        rw [hl] at hm; cases hm
    · simp only [Reg.deriv, if_neg hl, Lang]
      constructor
      · intro h; subst h
        exact ⟨x, rfl, Bool.eq_false_iff.mpr hl⟩
      · rintro ⟨c, hcs, -⟩
        simp only [List.cons.injEq] at hcs
        exact hcs.2
  | seq a b iha ihb =>
    intro s
    by_cases hn : a.nullable = true
    · simp only [Reg.deriv, if_pos hn, Lang]
      constructor
      · rintro (⟨u, v, huv, hu, hv⟩ | hb)
        · subst huv
          exact ⟨x :: u, v, rfl, (iha u).mp hu, hv⟩
        · exact ⟨[], x :: s, rfl, (nullable_iff a).mp hn, (ihb s).mp hb⟩
      · rintro ⟨u, v, huv, hu, hv⟩
        cases u with
        | nil =>
          simp only [List.nil_append] at huv
          subst huv
          exact Or.inr ((ihb s).mpr hv)
        | cons c u' =>
          simp only [List.cons_append, List.cons.injEq] at huv
          obtain ⟨hc, hs⟩ := huv
          subst hc
          subst hs
          exact Or.inl ⟨u', v, rfl, (iha u').mpr hu, hv⟩
    · simp only [Reg.deriv, if_neg hn, Lang]
      constructor
      · rintro ⟨u, v, huv, hu, hv⟩
        subst huv
        exact ⟨x :: u, v, rfl, (iha u).mp hu, hv⟩
      · rintro ⟨u, v, huv, hu, hv⟩
        cases u with
        | nil =>
          exact absurd ((nullable_iff a).mpr hu) hn
        | cons c u' =>
          simp only [List.cons_append, List.cons.injEq] at huv
          obtain ⟨hc, hs⟩ := huv
          subst hc
          subst hs
          exact ⟨u', v, rfl, (iha u').mpr hu, hv⟩
  | alt a b iha ihb =>
    intro s
    simp only [Reg.deriv, Lang, iha, ihb]
  | star a ih =>
    intro s
    simp only [Reg.deriv, Lang]
    constructor
    · rintro ⟨u, v, huv, hu, hv⟩
      subst huv
      exact Star.app (x :: u) v ((ih u).mp hu) hv
    · intro h
      obtain ⟨u, v, hs, hu, hv⟩ := star_cons h rfl
      exact ⟨u, v, hs, (ih u).mpr hu, hv⟩

theorem rmatch_iff (r : Reg) (s : List Char) : rmatch r s = true ↔ Lang r s := by
  induction s generalizing r with
  | nil => exact nullable_iff r
  | cons c cs ih =>
    have : rmatch r (c :: cs) = rmatch (r.deriv c) cs := rfl
    rw [this, ih (r.deriv c)]
    exact deriv_iff r c cs

/-! ## Collector lemmas -/

theorem data_append (a b : String) : (a ++ b).data = a.data ++ b.data := by
  cases a; cases b; rfl

theorem length_mk (l : List Char) : (String.mk l).length = l.length := rfl

theorem length_append' (a b : String) : (a ++ b).length = a.length + b.length := by
  show (a ++ b).data.length = a.data.length + b.data.length
  rw [data_append, List.length_append]

/-- The length of a truncated oversized content: the cap plus the notice. -/
theorem truncateContent_length (c : String) (n : Nat) (h : n < c.length) :
    (truncateContent c n).length = n + (truncSuffix n).length := by
  unfold truncateContent
  rw [if_neg (by omega)]
  rw [length_append', length_mk, List.length_take]
  have : c.length = c.data.length := rfl
  omega

/-- The truncated content is the first `n` characters followed by the
truncation notice. -/
theorem truncateContent_data (c : String) (n : Nat) (h : n < c.length) :
    (truncateContent c n).data = c.data.take n ++ (truncSuffix n).data := by
  unfold truncateContent
  rw [if_neg (by omega), data_append]

theorem readLoop_nil (readF : String → Option String) (L rc total : Nat) :
    readLoop readF L [] rc total = ⟨[], [], total⟩ := rfl

theorem readLoop_cons_readerr (readF : String → Option String) (L : Nat) (m : String)
    (rest : List String) (rc total : Nat) (hr : readF m = none) :
    readLoop readF L (m :: rest) rc total =
      ⟨(readLoop readF L rest rc total).results,
       readErrDiag m :: (readLoop readF L rest rc total).diags,
       (readLoop readF L rest rc total).totalTokens⟩ := by
  simp only [readLoop, hr]

theorem readLoop_cons_binary (readF : String → Option String) (L : Nat) (m : String)
    (rest : List String) (rc total : Nat) (c : String)
    (hr : readF m = some c) (hb : c.data.contains nullChar = true) :
    readLoop readF L (m :: rest) rc total =
      ⟨(readLoop readF L rest rc total).results,
       binaryDiag m :: (readLoop readF L rest rc total).diags,
       (readLoop readF L rest rc total).totalTokens⟩ := by
  simp only [readLoop, hr, hb, if_true]

theorem readLoop_cons_over (readF : String → Option String) (L : Nat) (m : String)
    (rest : List String) (rc total : Nat) (c : String)
    (hr : readF m = some c) (hb : c.data.contains nullChar = false)
    (hover : MAX_TOTAL_TOKENS < total +
      estimateTokens (if MAX_FILE_SIZE < c.length then truncateContent c MAX_FILE_SIZE else c)) :
    readLoop readF L (m :: rest) rc total =
      ⟨[],
       (if MAX_FILE_SIZE < c.length then [truncDiag m c.length] else []) ++
         [budgetDiag total rc L],
       total⟩ := by
  simp only [readLoop, hr, hb, Bool.false_eq_true, if_false, if_pos hover]

theorem readLoop_cons_ok (readF : String → Option String) (L : Nat) (m : String)
    (rest : List String) (rc total : Nat) (c : String)
    (hr : readF m = some c) (hb : c.data.contains nullChar = false)
    (hok : ¬ MAX_TOTAL_TOKENS < total +
      estimateTokens (if MAX_FILE_SIZE < c.length then truncateContent c MAX_FILE_SIZE else c)) :
    readLoop readF L (m :: rest) rc total =
      ⟨(m, if MAX_FILE_SIZE < c.length then truncateContent c MAX_FILE_SIZE else c) ::
         (readLoop readF L rest (rc + 1) (total +
           estimateTokens
             (if MAX_FILE_SIZE < c.length then truncateContent c MAX_FILE_SIZE else c))).results,
       (if MAX_FILE_SIZE < c.length then [truncDiag m c.length] else []) ++
         (readLoop readF L rest (rc + 1) (total +
           estimateTokens
             (if MAX_FILE_SIZE < c.length then truncateContent c MAX_FILE_SIZE else c))).diags,
       (readLoop readF L rest (rc + 1) (total +
         estimateTokens
           (if MAX_FILE_SIZE < c.length then truncateContent c MAX_FILE_SIZE else c))).totalTokens⟩
    := by
  simp only [readLoop, hr, hb, Bool.false_eq_true, if_false, if_neg hok]

/-- Every content string the read loop returns comes from a successful,
non-binary read, truncated exactly when oversized. -/
theorem readLoop_mem_results (readF : String → Option String) (L : Nat) :
    ∀ (files : List String) (rc total : Nat) (pc : String × String),
      pc ∈ (readLoop readF L files rc total).results →
      ∃ orig, readF pc.1 = some orig ∧ orig.data.contains nullChar = false ∧
        pc.2 = (if MAX_FILE_SIZE < orig.length then truncateContent orig MAX_FILE_SIZE else orig)
    := by
  intro files
  induction files with
  | nil => intro rc total pc h; simp [readLoop_nil] at h
  | cons m rest ih =>
    intro rc total pc h
    cases hr : readF m with
    | none =>
      rw [readLoop_cons_readerr readF L m rest rc total hr] at h
      exact ih rc total pc h
    | some c =>
      cases hb : c.data.contains nullChar with
      | true =>
        rw [readLoop_cons_binary readF L m rest rc total c hr hb] at h
        exact ih rc total pc h
      | false =>
        by_cases hov : MAX_TOTAL_TOKENS < total +
            estimateTokens (if MAX_FILE_SIZE < c.length then truncateContent c MAX_FILE_SIZE else c)
        · rw [readLoop_cons_over readF L m rest rc total c hr hb hov] at h
          simp at h
        · rw [readLoop_cons_ok readF L m rest rc total c hr hb hov] at h
          simp only [List.mem_cons] at h
          rcases h with h | h
          · subst h
            exact ⟨c, hr, hb, rfl⟩
          · exact ih _ _ pc h

/-- The running token total plus the cost of everything the loop still
accepts never exceeds the budget. -/
theorem readLoop_tokens_le (readF : String → Option String) (L : Nat) :
    ∀ (files : List String) (rc total : Nat), total ≤ MAX_TOTAL_TOKENS →
      total + ((readLoop readF L files rc total).results.map
        (fun pc => estimateTokens pc.2)).sum ≤ MAX_TOTAL_TOKENS := by
  intro files
  induction files with
  | nil => intro rc total h; simpa [readLoop_nil] using h
  | cons m rest ih =>
    intro rc total h
    cases hr : readF m with
    | none =>
      rw [readLoop_cons_readerr readF L m rest rc total hr]
      exact ih rc total h
    | some c =>
      cases hb : c.data.contains nullChar with
      | true =>
        rw [readLoop_cons_binary readF L m rest rc total c hr hb]
        exact ih rc total h
      | false =>
        by_cases hov : MAX_TOTAL_TOKENS < total +
            estimateTokens (if MAX_FILE_SIZE < c.length then truncateContent c MAX_FILE_SIZE else c)
        · rw [readLoop_cons_over readF L m rest rc total c hr hb hov]
          simpa using h
        · rw [readLoop_cons_ok readF L m rest rc total c hr hb hov]
          simp only [List.map_cons, List.sum_cons]
          have := ih (rc + 1)
            (total + estimateTokens
              (if MAX_FILE_SIZE < c.length then truncateContent c MAX_FILE_SIZE else c))
            (by omega)
          omega

/-- A binary file never contributes a result, at any position of the
candidate list. -/
theorem readLoop_binary_absent (readF : String → Option String) (L : Nat) (m : String)
    (c : String) (hr : readF m = some c) (hb : c.data.contains nullChar = true) :
    ∀ (files : List String) (rc total : Nat),
      m ∉ ((readLoop readF L files rc total).results.map Prod.fst) := by
  intro files
  induction files with
  | nil => intro rc total; simp [readLoop_nil]
  | cons m' rest ih =>
    intro rc total
    cases hr' : readF m' with
    | none =>
      rw [readLoop_cons_readerr readF L m' rest rc total hr']
      exact ih rc total
    | some c' =>
      cases hb' : c'.data.contains nullChar with
      | true =>
        rw [readLoop_cons_binary readF L m' rest rc total c' hr' hb']
        exact ih rc total
      | false =>
        by_cases hov : MAX_TOTAL_TOKENS < total +
            estimateTokens
              (if MAX_FILE_SIZE < c'.length then truncateContent c' MAX_FILE_SIZE else c')
        · rw [readLoop_cons_over readF L m' rest rc total c' hr' hb' hov]
          simp
        · rw [readLoop_cons_ok readF L m' rest rc total c' hr' hb' hov]
          simp only [List.map_cons, List.mem_cons]
          rintro (h | h)
          · subst h
            rw [hr'] at hr
            cases hr
            rw [hb'] at hb
            cases hb
          · exact ih _ _ h

theorem estimateTokens_def (s : String) : estimateTokens s = (s.length + 3) / 4 := rfl

/-! ## Concrete collection runs used as counterexamples and witnesses -/

/-- A 50001-character content, one character over the per-file cap. -/
def bigContent : String := ⟨List.replicate 50001 'x'⟩

/-- A reader in which every file holds `bigContent`. -/
def bigReadF : String → Option String := fun _ => some bigContent

theorem bigContent_not_binary : bigContent.data.contains nullChar = false := by
  rw [Bool.eq_false_iff]
  intro hc
  have hm : nullChar ∈ bigContent.data := List.mem_of_elem_eq_true hc
  have hx : nullChar = 'x' := List.eq_of_mem_replicate hm
  exact absurd hx (by decide)

theorem bigContent_length : bigContent.length = 50001 := by
  show (List.replicate 50001 'x').length = 50001
  exact List.length_replicate 50001 'x'

set_option maxRecDepth 4000 in
theorem truncSuffix_cap_length : (truncSuffix MAX_FILE_SIZE).length = 74 := by decide

theorem bigContent_trunc_tokens :
    estimateTokens (truncateContent bigContent MAX_FILE_SIZE) = 12519 := by
  rw [estimateTokens_def,
    truncateContent_length bigContent MAX_FILE_SIZE (by rw [bigContent_length]; decide),
    truncSuffix_cap_length]
  decide

/-- The collection run on a tree holding one oversized `README`. -/
theorem big_run :
    findAndReadFiles [FSEntry.file "README"] minimalPatterns bigReadF =
      ⟨[("README", truncateContent bigContent MAX_FILE_SIZE)],
       [truncDiag "README" 50001, collectedDiag 1 12519], 12519⟩ := by
  have h1 : findFiles [FSEntry.file "README"] minimalPatterns IGNORE_LIST 10 = ["README"] := by
    decide
  have hbig : MAX_FILE_SIZE < bigContent.length := by rw [bigContent_length]; decide
  have hok : ¬ MAX_TOTAL_TOKENS < 0 + estimateTokens
      (if MAX_FILE_SIZE < bigContent.length
        then truncateContent bigContent MAX_FILE_SIZE else bigContent) := by
    rw [if_pos hbig, bigContent_trunc_tokens]; decide
  have h2 := readLoop_cons_ok bigReadF 1 "README" [] 0 0 bigContent rfl
    bigContent_not_binary hok
  simp only [if_pos hbig] at h2
  simp only [bigContent_trunc_tokens, bigContent_length, readLoop_nil, List.append_nil,
    Nat.zero_add] at h2
  have hpipe : findAndReadFiles [FSEntry.file "README"] minimalPatterns bigReadF =
      ⟨(readLoop bigReadF 1 ["README"] 0 0).results,
       (readLoop bigReadF 1 ["README"] 0 0).diags ++
         [collectedDiag (readLoop bigReadF 1 ["README"] 0 0).results.length
           (readLoop bigReadF 1 ["README"] 0 0).totalTokens],
       (readLoop bigReadF 1 ["README"] 0 0).totalTokens⟩ := by
    unfold findAndReadFiles
    rw [h1]
    rfl
  rw [hpipe, h2]
  simp only [List.length_singleton, List.singleton_append]

/-! ## Claim theorems: the collector (C1, C2, C3, C9) and the matcher examples (C4) -/


/-- C1 (amended) -/
theorem c1_per_file_cap (tree : List FSEntry) (patterns : List String)
    (readF : String → Option String) (pc : String × String)
    (h : pc ∈ (findAndReadFiles tree patterns readF).results) :
    ∃ orig, readF pc.1 = some orig ∧
      ((orig.length ≤ MAX_FILE_SIZE ∧ pc.2 = orig) ∨
        (MAX_FILE_SIZE < orig.length ∧ pc.2 = truncateContent orig MAX_FILE_SIZE ∧
          pc.2.length = MAX_FILE_SIZE + (truncSuffix MAX_FILE_SIZE).length)) ∧
      pc.2.length ≤ MAX_FILE_SIZE + (truncSuffix MAX_FILE_SIZE).length := by
  have hm : pc ∈ (readLoop readF
      (((dedupFirst (findFiles tree patterns IGNORE_LIST 10)).map
        (fun m => (m, getFilePriority m))).insertionSort (fun a b => a.2 ≤ b.2)).length
      ((((dedupFirst (findFiles tree patterns IGNORE_LIST 10)).map
        (fun m => (m, getFilePriority m))).insertionSort (fun a b => a.2 ≤ b.2)).map Prod.fst)
      0 0).results := h
  obtain ⟨orig, hr, hb, hc⟩ := readLoop_mem_results readF _ _ 0 0 pc hm
  by_cases hlen : MAX_FILE_SIZE < orig.length
  · rw [if_pos hlen] at hc
    have hl : pc.2.length = MAX_FILE_SIZE + (truncSuffix MAX_FILE_SIZE).length := by
      rw [hc]; exact truncateContent_length orig MAX_FILE_SIZE hlen
    exact ⟨orig, hr, Or.inr ⟨hlen, hc, hl⟩, le_of_eq hl⟩
  · rw [if_neg hlen] at hc
    refine ⟨orig, hr, Or.inl ⟨not_lt.mp hlen, hc⟩, ?_⟩
    rw [hc]
    omega

/-- C1 counterexample -/
theorem c1_counterexample :
    ((findAndReadFiles [FSEntry.file "README"] minimalPatterns bigReadF).results.map
      (fun pc => pc.2.length)) = [50074] ∧ ¬ (50074 ≤ MAX_FILE_SIZE) := by
  constructor
  · rw [big_run]
    simp only [List.map_cons, List.map_nil]
    rw [truncateContent_length bigContent MAX_FILE_SIZE (by rw [bigContent_length]; decide),
      truncSuffix_cap_length]
    decide
  · decide

def smallReadF : String → Option String := fun _ => some "hello"

/-- C1 witness -/
theorem c1_witness :
    ∃ orig, smallReadF "README" = some orig ∧
      ((orig.length ≤ MAX_FILE_SIZE ∧ "hello" = orig) ∨
        (MAX_FILE_SIZE < orig.length ∧ "hello" = truncateContent orig MAX_FILE_SIZE ∧
          ("hello" : String).length = MAX_FILE_SIZE + (truncSuffix MAX_FILE_SIZE).length)) ∧
      ("hello" : String).length ≤ MAX_FILE_SIZE + (truncSuffix MAX_FILE_SIZE).length :=
  c1_per_file_cap [FSEntry.file "README"] minimalPatterns smallReadF ("README", "hello")
    (by decide)

/-- C2 (amended) -/
theorem c2_size_reports_truncated_length (tree : List FSEntry) (depth : String)
    (readF : String → Option String) (f : CollectedFile)
    (h : f ∈ collectRepoFiles tree depth readF) :
    f.sizeBytes = f.content.length ∧
    ∃ orig, readF f.path = some orig ∧
      (MAX_FILE_SIZE < orig.length →
        f.content.data = orig.data.take MAX_FILE_SIZE ++ (truncSuffix MAX_FILE_SIZE).data ∧
        f.sizeBytes = MAX_FILE_SIZE + (truncSuffix MAX_FILE_SIZE).length) := by
  simp only [collectRepoFiles, List.mem_map] at h
  obtain ⟨pc, hpc, hf⟩ := h
  subst hf
  refine ⟨rfl, ?_⟩
  obtain ⟨orig, hr, hd, -⟩ := c1_per_file_cap tree (getFilePatterns depth) readF pc hpc
  refine ⟨orig, hr, fun hlen => ?_⟩
  rcases hd with ⟨hle, -⟩ | ⟨-, hc, hl⟩
  · omega
  · constructor
    · show pc.2.data = _
      rw [hc]
      exact truncateContent_data orig MAX_FILE_SIZE hlen
    · show pc.2.length = _
      exact hl

/-- C2 counterexample -/
theorem c2_counterexample :
    ((collectRepoFiles [FSEntry.file "README"] "minimal" bigReadF).map
      (fun f => f.sizeBytes)) = [50074] ∧ bigContent.length = 50001 ∧ (50074 : Nat) ≠ 50001 := by
  refine ⟨?_, bigContent_length, by decide⟩
  have hp : getFilePatterns "minimal" = minimalPatterns := rfl
  unfold collectRepoFiles
  rw [hp, big_run]
  simp only [List.map_cons, List.map_nil]
  rw [truncateContent_length bigContent MAX_FILE_SIZE (by rw [bigContent_length]; decide),
    truncSuffix_cap_length]
  decide

/-- C2 witness -/
theorem c2_witness :
    (5 : Nat) = ("hello" : String).length ∧
    ∃ orig, smallReadF "README" = some orig ∧
      (MAX_FILE_SIZE < orig.length →
        ("hello" : String).data = orig.data.take MAX_FILE_SIZE ++ (truncSuffix MAX_FILE_SIZE).data ∧
        (5 : Nat) = MAX_FILE_SIZE + (truncSuffix MAX_FILE_SIZE).length) :=
  c2_size_reports_truncated_length [FSEntry.file "README"] "minimal" smallReadF
    ⟨"README", 5, "hello"⟩ (by decide)

/-- C3 -/
theorem c3_aggregate_token_budget :
    (∀ (tree : List FSEntry) (patterns : List String) (readF : String → Option String),
      ((findAndReadFiles tree patterns readF).results.map
        (fun pc => estimateTokens pc.2)).sum ≤ MAX_TOTAL_TOKENS)
    ∧
    (∀ (readF : String → Option String) (L : Nat) (m : String) (rest : List String)
        (rc total : Nat) (c : String),
      readF m = some c → c.data.contains nullChar = false →
      MAX_TOTAL_TOKENS < total +
        estimateTokens (if MAX_FILE_SIZE < c.length then truncateContent c MAX_FILE_SIZE else c) →
      (readLoop readF L (m :: rest) rc total).results = []) := by
  constructor
  · intro tree patterns readF
    have h := readLoop_tokens_le readF
      ((((dedupFirst (findFiles tree patterns IGNORE_LIST 10)).map
        (fun m => (m, getFilePriority m))).insertionSort (fun a b => a.2 ≤ b.2)).length)
      (((((dedupFirst (findFiles tree patterns IGNORE_LIST 10)).map
        (fun m => (m, getFilePriority m))).insertionSort (fun a b => a.2 ≤ b.2)).map Prod.fst))
      0 0 (by decide)
    simpa [findAndReadFiles] using h
  · intro readF L m rest rc total c hr hb hov
    rw [readLoop_cons_over readF L m rest rc total c hr hb hov]

def wReadF : String → Option String := fun _ => some "aaaa"

/-- C3 witness -/
theorem c3_witness : (readLoop wReadF 1 ["a.txt"] 0 15000).results = [] :=
  c3_aggregate_token_budget.2 wReadF 1 "a.txt" [] 0 15000 "aaaa" rfl (by decide) (by decide)

/-- C9 -/
theorem c9_binary_null_byte_skip (readF : String → Option String) (m c : String)
    (hr : readF m = some c) (hb : c.data.contains nullChar = true) :
    (∀ (tree : List FSEntry) (patterns : List String),
      m ∉ ((findAndReadFiles tree patterns readF).results.map Prod.fst))
    ∧ (∀ (L : Nat) (files : List String) (rc total : Nat),
      m ∉ ((readLoop readF L files rc total).results.map Prod.fst))
    ∧ (∀ (L : Nat) (rest : List String) (rc total : Nat),
      readLoop readF L (m :: rest) rc total =
        ⟨(readLoop readF L rest rc total).results,
          binaryDiag m :: (readLoop readF L rest rc total).diags,
          (readLoop readF L rest rc total).totalTokens⟩) := by
  refine ⟨?_, ?_, ?_⟩
  · intro tree patterns
    have h := readLoop_binary_absent readF
      ((((dedupFirst (findFiles tree patterns IGNORE_LIST 10)).map
        (fun m => (m, getFilePriority m))).insertionSort (fun a b => a.2 ≤ b.2)).length)
      m c hr hb
      (((((dedupFirst (findFiles tree patterns IGNORE_LIST 10)).map
        (fun m => (m, getFilePriority m))).insertionSort (fun a b => a.2 ≤ b.2)).map Prod.fst))
      0 0
    simpa [findAndReadFiles] using h
  · intro L files rc total
    exact readLoop_binary_absent readF L m c hr hb files rc total
  · intro L rest rc total
    exact readLoop_cons_binary readF L m rest rc total c hr hb

def binContent : String := ⟨['P', 'K', nullChar, 'x']⟩

def binReadF : String → Option String := fun _ => some binContent

/-- C9 witness -/
theorem c9_witness :
    "Dockerfile.bin" ∉ ((readLoop binReadF 1 ["Dockerfile.bin"] 0 0).results.map Prod.fst) :=
  (c9_binary_null_byte_skip binReadF "Dockerfile.bin" binContent rfl (by decide)).2.1 1
    ["Dockerfile.bin"] 0 0

/-- C4 -/
theorem c4_star_segment_semantics :
    matchPattern "src/index.ts" "src/*.ts" = some true ∧
    matchPattern "src/utils/helper.ts" "src/*.ts" = some false ∧
    matchPattern "src/utils/helper.ts" "src/**/*.ts" = some true ∧
    matchPattern "src/utils/helper.ts" "**/*.ts" = some true ∧
    matchPattern "index.ts" "**/*.ts" = some true :=
  ⟨by decide, by decide, by decide, by decide, by decide⟩




/-! lexLe order facts -/

theorem lexLe_total : ∀ a b : List Char, lexLe a b = true ∨ lexLe b a = true := by
  intro a
  induction a with
  | nil => intro b; left; rfl
  | cons x xs ih =>
    intro b
    cases b with
    | nil => right; rfl
    | cons y ys =>
      simp only [lexLe]
      rcases Nat.lt_trichotomy x.toNat y.toNat with h | h | h
      · left; rw [if_pos h]
      · rw [if_neg (by omega), if_neg (by omega), if_neg (by omega), if_neg (by omega)]
        exact ih ys
      · right; rw [if_pos h]

theorem lexLe_trans : ∀ a b c : List Char,
    lexLe a b = true → lexLe b c = true → lexLe a c = true := by
  intro a
  induction a with
  | nil => intro b c _ _; rfl
  | cons x xs ih =>
    intro b c hab hbc
    cases b with
    | nil => simp [lexLe] at hab
    | cons y ys =>
      cases c with
      | nil => simp [lexLe] at hbc
      | cons z zs =>
        simp only [lexLe] at hab hbc ⊢
        by_cases hxy : x.toNat < y.toNat
        · by_cases hyz : y.toNat < z.toNat
          · rw [if_pos (by omega)]
          · rw [if_neg hyz] at hbc
            by_cases hzy : z.toNat < y.toNat
            · rw [if_pos hzy] at hbc; cases hbc
            · rw [if_pos (by omega)]
        · rw [if_neg hxy] at hab
          by_cases hyx : y.toNat < x.toNat
          · rw [if_pos hyx] at hab; cases hab
          · rw [if_neg hyx] at hab
            by_cases hyz : y.toNat < z.toNat
            · rw [if_pos (by omega)]
            · rw [if_neg hyz] at hbc
              by_cases hzy : z.toNat < y.toNat
              · rw [if_pos hzy] at hbc; cases hbc
              · rw [if_neg hzy] at hbc
                rw [if_neg (by omega), if_neg (by omega)]
                exact ih ys zs hab hbc

theorem char_eq_of_toNat_eq {x y : Char} (h : x.toNat = y.toNat) : x = y :=
  Char.ext (UInt32.ext h)

theorem lexLe_antisymm : ∀ a b : List Char,
    lexLe a b = true → lexLe b a = true → a = b := by
  intro a
  induction a with
  | nil =>
    intro b _ hba
    cases b with
    | nil => rfl
    | cons y ys => simp [lexLe] at hba
  | cons x xs ih =>
    intro b hab hba
    cases b with
    | nil => simp [lexLe] at hab
    | cons y ys =>
      simp only [lexLe] at hab hba
      by_cases hxy : x.toNat < y.toNat
      · rw [if_neg (by omega), if_pos hxy] at hba; cases hba
      · by_cases hyx : y.toNat < x.toNat
        · rw [if_neg hxy, if_pos hyx] at hab; cases hab
        · rw [if_neg hxy, if_neg hyx] at hab
          rw [if_neg hyx, if_neg hxy] at hba
          have hx : x = y := char_eq_of_toNat_eq (by omega)
          rw [hx, ih ys hab hba]

/-- The relation `findFiles` sorts with. -/
def strLeRel (a b : String) : Prop := strLe a b = true

instance : DecidableRel strLeRel := fun a b => by
  unfold strLeRel; infer_instance

instance : IsTotal String strLeRel :=
  ⟨fun a b => lexLe_total a.data b.data⟩

instance : IsTrans String strLeRel :=
  ⟨fun a b c => lexLe_trans a.data b.data c.data⟩

instance : IsAntisymm String strLeRel :=
  ⟨fun a b hab hba => by
    cases a with
    | mk da =>
      cases b with
      | mk db =>
        have : da = db := lexLe_antisymm da db hab hba
        rw [this]⟩

/-! dedupFirst facts -/

theorem mem_dedupFirstGo : ∀ (l seen : List String) (x : String),
    x ∈ dedupFirstGo seen l ↔ (x ∈ l ∧ seen.contains x = false) := by
  intro l
  induction l with
  | nil => intro seen x; simp [dedupFirstGo]
  | cons y ys ih =>
    intro seen x
    simp only [dedupFirstGo]
    by_cases hy : seen.contains y = true
    · rw [if_pos hy, ih]
      constructor
      · rintro ⟨hx, hs⟩
        exact ⟨List.mem_cons_of_mem y hx, hs⟩
      · rintro ⟨hx, hs⟩
        rcases List.mem_cons.mp hx with rfl | hx
        · rw [hy] at hs; cases hs
        · exact ⟨hx, hs⟩
    · rw [if_neg hy]
      simp only [List.mem_cons, ih]
      constructor
      · rintro (rfl | ⟨hx, hs⟩)
        · exact ⟨Or.inl rfl, Bool.eq_false_iff.mpr hy⟩
        · rw [List.contains_cons] at hs
          simp only [Bool.or_eq_false_iff] at hs
          exact ⟨Or.inr hx, hs.2⟩
      · rintro ⟨rfl | hx, hs⟩
        · exact Or.inl rfl
        · by_cases hxy : x = y
          · exact Or.inl hxy
          · refine Or.inr ⟨hx, ?_⟩
            rw [List.contains_cons]
            simp only [Bool.or_eq_false_iff]
            refine ⟨?_, hs⟩
            exact beq_eq_false_iff_ne.mpr hxy

theorem mem_dedupFirst (l : List String) (x : String) : x ∈ dedupFirst l ↔ x ∈ l := by
  unfold dedupFirst
  rw [mem_dedupFirstGo]
  simp [List.contains]

theorem dedupFirstGo_nodup : ∀ (l seen : List String), (dedupFirstGo seen l).Nodup := by
  intro l
  induction l with
  | nil => intro seen; simp [dedupFirstGo]
  | cons y ys ih =>
    intro seen
    simp only [dedupFirstGo]
    by_cases hy : seen.contains y = true
    · rw [if_pos hy]; exact ih seen
    · rw [if_neg hy]
      refine List.nodup_cons.mpr ⟨?_, ih (y :: seen)⟩
      intro hmem
      have := (mem_dedupFirstGo ys (y :: seen) y).mp hmem
      rw [List.contains_cons] at this
      simp at this

theorem dedupFirst_nodup (l : List String) : (dedupFirst l).Nodup := dedupFirstGo_nodup l []

/-! Walk unfolding equations -/

theorem walkEntries_nil (ign pats : List String) (maxDepth fuel : Nat) (pre : String)
    (depth : Nat) : walkEntries ign pats maxDepth fuel [] pre depth = [] := by
  cases fuel <;> rfl

theorem walkEntries_cons_file (ign pats : List String) (maxDepth fuel : Nat) (n : String)
    (rest : List FSEntry) (pre : String) (depth : Nat) :
    walkEntries ign pats maxDepth fuel (FSEntry.file n :: rest) pre depth =
      (if shouldIgnore (joinRel pre n) ign = true then []
       else if matchesAnyPattern (joinRel pre n) pats = true then [joinRel pre n] else [])
      ++ walkEntries ign pats maxDepth fuel rest pre depth := by
  cases fuel <;> rfl

theorem walkEntries_cons_dir_zero (ign pats : List String) (maxDepth : Nat) (n : String)
    (subs rest : List FSEntry) (pre : String) (depth : Nat) :
    walkEntries ign pats maxDepth 0 (FSEntry.dir n subs :: rest) pre depth =
      (if shouldIgnore (joinRel pre n) ign = true then []
       else if depth + 1 > maxDepth then [] else [])
      ++ walkEntries ign pats maxDepth 0 rest pre depth := rfl

theorem walkEntries_cons_dir_succ (ign pats : List String) (maxDepth fuel : Nat) (n : String)
    (subs rest : List FSEntry) (pre : String) (depth : Nat) :
    walkEntries ign pats maxDepth (fuel + 1) (FSEntry.dir n subs :: rest) pre depth =
      (if shouldIgnore (joinRel pre n) ign = true then []
       else if depth + 1 > maxDepth then []
       else walkEntries ign pats maxDepth fuel subs (joinRel pre n) (depth + 1))
      ++ walkEntries ign pats maxDepth (fuel + 1) rest pre depth := rfl

/-! Walk soundness: everything the walk returns survived `shouldIgnore`
and matched an inclusion pattern. -/

theorem walkEntries_mem_sound (ign pats : List String) (maxDepth : Nat) :
    ∀ (fuel : Nat) (entries : List FSEntry) (pre : String) (depth : Nat) (r : String),
      r ∈ walkEntries ign pats maxDepth fuel entries pre depth →
      shouldIgnore r ign = false ∧ matchesAnyPattern r pats = true := by
  intro fuel
  induction fuel with
  | zero =>
    intro entries pre depth r h
    induction entries with
    | nil => rw [walkEntries_nil] at h; cases h
    | cons e rest ihe =>
      cases e with
      | file n =>
        rw [walkEntries_cons_file, List.mem_append] at h
        rcases h with h | h
        · by_cases hig : shouldIgnore (joinRel pre n) ign = true
          · rw [if_pos hig] at h; cases h
          · rw [if_neg hig] at h
            by_cases hm : matchesAnyPattern (joinRel pre n) pats = true
            · rw [if_pos hm] at h
              rcases List.mem_singleton.mp h with rfl
              exact ⟨Bool.eq_false_iff.mpr hig, hm⟩
            · rw [if_neg hm] at h; cases h
        · exact ihe h
      | dir n subs =>
        rw [walkEntries_cons_dir_zero, List.mem_append] at h
        rcases h with h | h
        · by_cases hig : shouldIgnore (joinRel pre n) ign = true
          · rw [if_pos hig] at h; cases h
          · rw [if_neg hig] at h
            by_cases hd : depth + 1 > maxDepth
            · rw [if_pos hd] at h; cases h
            · rw [if_neg hd] at h; cases h
        · exact ihe h
  | succ fuel ih =>
    intro entries pre depth r h
    induction entries with
    | nil => rw [walkEntries_nil] at h; cases h
    | cons e rest ihe =>
      cases e with
      | file n =>
        rw [walkEntries_cons_file, List.mem_append] at h
        rcases h with h | h
        · by_cases hig : shouldIgnore (joinRel pre n) ign = true
          · rw [if_pos hig] at h; cases h
          · rw [if_neg hig] at h
            by_cases hm : matchesAnyPattern (joinRel pre n) pats = true
            · rw [if_pos hm] at h
              rcases List.mem_singleton.mp h with rfl
              exact ⟨Bool.eq_false_iff.mpr hig, hm⟩
            · rw [if_neg hm] at h; cases h
        · exact ihe h
      | dir n subs =>
        rw [walkEntries_cons_dir_succ, List.mem_append] at h
        rcases h with h | h
        · by_cases hig : shouldIgnore (joinRel pre n) ign = true
          · rw [if_pos hig] at h; cases h
          · rw [if_neg hig] at h
            by_cases hd : depth + 1 > maxDepth
            · rw [if_pos hd] at h; cases h
            · rw [if_neg hd] at h
              exact ih subs (joinRel pre n) (depth + 1) r h
        · exact ihe h

theorem findFiles_mem_sound (tree : List FSEntry) (patterns ignore : List String)
    (maxDepth : Nat) (r : String) (h : r ∈ findFiles tree patterns ignore maxDepth) :
    shouldIgnore r (ignore.map normalizePattern) = false ∧
    matchesAnyPattern r (patterns.map normalizePattern) = true := by
  unfold findFiles at h
  have h1 := (List.perm_insertionSort (fun a b => strLe a b) _).mem_iff.mp h
  have h2 := (mem_dedupFirst _ r).mp h1
  exact walkEntries_mem_sound _ _ maxDepth maxDepth tree "" 0 r h2

/-! Reordering the directory entries of a tree, recursively. -/

inductive TreesPerm : List FSEntry → List FSEntry → Prop where
  | nil : TreesPerm [] []
  | consFile (n : String) (l1 l2 : List FSEntry) :
      TreesPerm l1 l2 → TreesPerm (FSEntry.file n :: l1) (FSEntry.file n :: l2)
  | consDir (n : String) (es1 es2 : List FSEntry) (l1 l2 : List FSEntry) :
      TreesPerm es1 es2 → TreesPerm l1 l2 →
      TreesPerm (FSEntry.dir n es1 :: l1) (FSEntry.dir n es2 :: l2)
  | swap (e1 e2 : FSEntry) (l : List FSEntry) :
      TreesPerm (e1 :: e2 :: l) (e2 :: e1 :: l)
  | trans (l1 l2 l3 : List FSEntry) :
      TreesPerm l1 l2 → TreesPerm l2 l3 → TreesPerm l1 l3

/-- The per-entry contribution of the walk (one step of the flatMap). -/
theorem walkEntries_cons (ign pats : List String) (maxDepth fuel : Nat) (e : FSEntry)
    (rest : List FSEntry) (pre : String) (depth : Nat) :
    walkEntries ign pats maxDepth fuel (e :: rest) pre depth =
      walkEntries ign pats maxDepth fuel [e] pre depth
      ++ walkEntries ign pats maxDepth fuel rest pre depth := by
  cases fuel with
  | zero =>
    cases e with
    | file n => rw [walkEntries_cons_file, walkEntries_cons_file, walkEntries_nil,
        List.append_nil]
    | dir n subs => rw [walkEntries_cons_dir_zero, walkEntries_cons_dir_zero, walkEntries_nil,
        List.append_nil]
  | succ fuel =>
    cases e with
    | file n => rw [walkEntries_cons_file, walkEntries_cons_file, walkEntries_nil,
        List.append_nil]
    | dir n subs => rw [walkEntries_cons_dir_succ, walkEntries_cons_dir_succ, walkEntries_nil,
        List.append_nil]

theorem walkEntries_perm (ign pats : List String) (maxDepth : Nat) :
    ∀ (fuel : Nat) (l1 l2 : List FSEntry), TreesPerm l1 l2 → ∀ (pre : String) (depth : Nat),
      (walkEntries ign pats maxDepth fuel l1 pre depth).Perm
        (walkEntries ign pats maxDepth fuel l2 pre depth) := by
  intro fuel
  induction fuel with
  | zero =>
    intro l1 l2 h
    induction h with
    | nil => intro pre depth; exact List.Perm.refl _
    | consFile n l1 l2 _ ihl =>
      intro pre depth
      rw [walkEntries_cons_file, walkEntries_cons_file]
      exact List.Perm.append_left _ (ihl pre depth)
    | consDir n es1 es2 l1 l2 _ _ _ ihl =>
      intro pre depth
      rw [walkEntries_cons_dir_zero, walkEntries_cons_dir_zero]
      exact List.Perm.append_left _ (ihl pre depth)
    | swap e1 e2 l =>
      intro pre depth
      rw [walkEntries_cons ign pats maxDepth 0 e1 (e2 :: l),
        walkEntries_cons ign pats maxDepth 0 e2 l,
        walkEntries_cons ign pats maxDepth 0 e2 (e1 :: l),
        walkEntries_cons ign pats maxDepth 0 e1 l]
      exact List.perm_append_comm_assoc _ _ _
    | trans l1 l2 l3 _ _ ih1 ih2 =>
      intro pre depth
      exact (ih1 pre depth).trans (ih2 pre depth)
  | succ fuel ihf =>
    intro l1 l2 h
    induction h with
    | nil => intro pre depth; exact List.Perm.refl _
    | consFile n l1 l2 _ ihl =>
      intro pre depth
      rw [walkEntries_cons_file, walkEntries_cons_file]
      exact List.Perm.append_left _ (ihl pre depth)
    | consDir n es1 es2 l1 l2 hes _ _ ihl =>
      intro pre depth
      rw [walkEntries_cons_dir_succ, walkEntries_cons_dir_succ]
      refine List.Perm.append ?_ (ihl pre depth)
      by_cases hig : shouldIgnore (joinRel pre n) ign = true
      · simp only [if_pos hig]
        exact List.Perm.refl _
      · simp only [if_neg hig]
        by_cases hd : depth + 1 > maxDepth
        · simp only [if_pos hd]
          exact List.Perm.refl _
        · simp only [if_neg hd]
          exact ihf es1 es2 hes (joinRel pre n) (depth + 1)
    | swap e1 e2 l =>
      intro pre depth
      rw [walkEntries_cons ign pats maxDepth (fuel + 1) e1 (e2 :: l),
        walkEntries_cons ign pats maxDepth (fuel + 1) e2 l,
        walkEntries_cons ign pats maxDepth (fuel + 1) e2 (e1 :: l),
        walkEntries_cons ign pats maxDepth (fuel + 1) e1 l]
      exact List.perm_append_comm_assoc _ _ _
    | trans l1 l2 l3 _ _ ih1 ih2 =>
      intro pre depth
      exact (ih1 pre depth).trans (ih2 pre depth)

theorem findFiles_perm_invariant (tree1 tree2 : List FSEntry) (patterns ignore : List String)
    (maxDepth : Nat) (h : TreesPerm tree1 tree2) :
    findFiles tree1 patterns ignore maxDepth = findFiles tree2 patterns ignore maxDepth := by
  unfold findFiles
  have hw := walkEntries_perm (ignore.map normalizePattern) (patterns.map normalizePattern)
    maxDepth maxDepth tree1 tree2 h "" 0
  have hd : (dedupFirst (walkEntries (ignore.map normalizePattern)
      (patterns.map normalizePattern) maxDepth maxDepth tree1 "" 0)).Perm
      (dedupFirst (walkEntries (ignore.map normalizePattern)
      (patterns.map normalizePattern) maxDepth maxDepth tree2 "" 0)) := by
    rw [List.perm_ext_iff_of_nodup (dedupFirst_nodup _) (dedupFirst_nodup _)]
    intro a
    rw [mem_dedupFirst, mem_dedupFirst]
    exact hw.mem_iff
  have hs1 := List.sorted_insertionSort (strLeRel) (dedupFirst
    (walkEntries (ignore.map normalizePattern) (patterns.map normalizePattern)
      maxDepth maxDepth tree1 "" 0))
  have hs2 := List.sorted_insertionSort (strLeRel) (dedupFirst
    (walkEntries (ignore.map normalizePattern) (patterns.map normalizePattern)
      maxDepth maxDepth tree2 "" 0))
  have hperm := ((List.perm_insertionSort (fun a b => strLe a b) _).trans hd).trans
    (List.perm_insertionSort (fun a b => strLe a b) _).symm
  exact List.eq_of_perm_of_sorted (r := strLeRel) hperm hs1 hs2

/-- C5 (amended) -/
theorem c5_exclusion_shields_inclusion :
    (∀ (tree : List FSEntry) (patterns ignore : List String) (maxDepth : Nat) (r : String),
      r ∈ findFiles tree patterns ignore maxDepth →
      shouldIgnore r (ignore.map normalizePattern) = false ∧
      matchesAnyPattern r (patterns.map normalizePattern) = true)
    ∧ findFiles
        [FSEntry.dir "node_modules" [FSEntry.file "lib.js"],
         FSEntry.dir "dist" [FSEntry.file "index.js"]]
        ["**/*.js"] ["node_modules/**"] 10 = ["dist/index.js"] :=
  ⟨findFiles_mem_sound, by decide⟩

/-- C5 counterexample -/
theorem c5_counterexample :
    matchesAnyPattern "node_modules/lib.js" ["**/*.js"] = true ∧
    shouldIgnore "node_modules/lib.js" ["node_modules"] = false ∧
    findFiles [FSEntry.dir "node_modules" [FSEntry.file "lib.js"]]
      ["**/*.js"] ["node_modules"] 10 = [] :=
  ⟨by decide, by decide, by decide⟩

/-- C5 witness -/
theorem c5_witness :
    shouldIgnore "dist/index.js" (["node_modules/**"].map normalizePattern) = false ∧
    matchesAnyPattern "dist/index.js" (["**/*.js"].map normalizePattern) = true :=
  c5_exclusion_shields_inclusion.1
    [FSEntry.dir "node_modules" [FSEntry.file "lib.js"],
     FSEntry.dir "dist" [FSEntry.file "index.js"]]
    ["**/*.js"] ["node_modules/**"] 10 "dist/index.js" (by decide)

/-- C6 -/
theorem c6_sorted_dedup_deterministic :
    (∀ (tree : List FSEntry) (patterns ignore : List String) (maxDepth : Nat),
      (findFiles tree patterns ignore maxDepth).Sorted strLeRel ∧
      (findFiles tree patterns ignore maxDepth).Nodup)
    ∧ (∀ (tree1 tree2 : List FSEntry) (patterns ignore : List String) (maxDepth : Nat),
      TreesPerm tree1 tree2 →
      findFiles tree1 patterns ignore maxDepth = findFiles tree2 patterns ignore maxDepth)
    ∧ (findFiles [FSEntry.file "package.json", FSEntry.file "other.txt"]
        ["package.json", "*.json"] [] 10).count "package.json" = 1 := by
  refine ⟨?_, findFiles_perm_invariant, by decide⟩
  intro tree patterns ignore maxDepth
  unfold findFiles
  constructor
  · exact List.sorted_insertionSort strLeRel _
  · rw [(List.perm_insertionSort (fun a b => strLe a b) _).nodup_iff]
    exact dedupFirst_nodup _

/-- C6 witness -/
theorem c6_witness :
    findFiles [FSEntry.file "b.json", FSEntry.file "a.json"] ["*.json"] [] 10 =
    findFiles [FSEntry.file "a.json", FSEntry.file "b.json"] ["*.json"] [] 10 :=
  c6_sorted_dedup_deterministic.2.1 _ _ ["*.json"] [] 10
    (TreesPerm.swap (FSEntry.file "b.json") (FSEntry.file "a.json") [])

/-- C7 -/
theorem c7_depth_pruning :
    (∀ (ign pats : List String) (maxDepth fuel : Nat) (n : String) (subs : List FSEntry)
        (rest : List FSEntry) (pre : String) (depth : Nat),
      maxDepth < depth + 1 →
      walkEntries ign pats maxDepth fuel (FSEntry.dir n subs :: rest) pre depth =
        walkEntries ign pats maxDepth fuel rest pre depth)
    ∧ findFiles [FSEntry.dir "src" [FSEntry.file "index.ts"]] ["**/*.ts"] [] 0 = [] := by
  constructor
  · intro ign pats maxDepth fuel n subs rest pre depth hd
    cases fuel with
    | zero =>
      rw [walkEntries_cons_dir_zero]
      by_cases hig : shouldIgnore (joinRel pre n) ign = true
      · rw [if_pos hig, List.nil_append]
      · rw [if_neg hig, if_pos hd, List.nil_append]
    | succ fuel =>
      rw [walkEntries_cons_dir_succ]
      by_cases hig : shouldIgnore (joinRel pre n) ign = true
      · rw [if_pos hig, List.nil_append]
      · rw [if_neg hig, if_pos hd, List.nil_append]
  · decide

/-- C7 witness -/
theorem c7_witness :
    walkEntries [] ["**/*.ts"] 0 0 [FSEntry.dir "src" [FSEntry.file "index.ts"]] "" 0 =
      walkEntries [] ["**/*.ts"] 0 0 [] "" 0 :=
  c7_depth_pruning.1 [] ["**/*.ts"] 0 0 "src" [FSEntry.file "index.ts"] [] "" 0 (by decide)



/-! ## Equations for `replaceAll` -/

/-- The skip counter just drops already-matched characters. -/
theorem replaceAllGo_skip (pat repl : List Char) :
    ∀ (k : Nat) (s : List Char),
      replaceAllGo pat repl k s = replaceAll pat repl (s.drop k) := by
  intro k
  induction k with
  | zero => intro s; rfl
  | succ k ih =>
    intro s
    cases s with
    | nil => rfl
    | cons c cs =>
      show replaceAllGo pat repl k cs = _
      rw [ih, List.drop_succ_cons]

/-- A match at the front of the string is replaced and the scan resumes
after the matched text. -/
theorem replaceAll_match (pat repl s : List Char) (hp : pat ≠ [])
    (h : pat.isPrefixOf s = true) :
    replaceAll pat repl s = repl ++ replaceAll pat repl (s.drop pat.length) := by
  cases s with
  | nil =>
    cases pat with
    | nil => exact absurd rfl hp
    | cons p pr => simp [List.isPrefixOf] at h
  | cons c cs =>
    show replaceAllGo pat repl 0 (c :: cs) = _
    rw [replaceAllGo, if_pos ⟨hp, h⟩, replaceAllGo_skip]
    cases pat with
    | nil => exact absurd rfl hp
    | cons p pr =>
      rw [List.length_cons, Nat.add_sub_cancel, List.drop_succ_cons]

/-- No match at the front: the head character is emitted unchanged. -/
theorem replaceAll_nomatch (pat repl : List Char) (c : Char) (cs : List Char)
    (h : pat.isPrefixOf (c :: cs) = false) :
    replaceAll pat repl (c :: cs) = c :: replaceAll pat repl cs := by
  show replaceAllGo pat repl 0 (c :: cs) = _
  rw [replaceAllGo,
    if_neg (by rintro ⟨-, hpre⟩; rw [h] at hpre; exact Bool.false_ne_true hpre)]
  rfl

/-- If a nonempty pattern does not match at a `c`-headed position, it is not
a prefix of the singleton `[c]` either. -/
theorem singleton_prefix_false {pat : List Char} {c : Char} {rest : List Char}
    (hpat : pat ≠ []) (hpre : pat.isPrefixOf (c :: rest) = false) :
    pat.isPrefixOf [c] = false := by
  cases hps : pat.isPrefixOf [c] with
  | false => rfl
  | true =>
    obtain ⟨w, hw⟩ := List.isPrefixOf_iff_prefix.mp hps
    cases pat with
    | nil => exact absurd rfl hpat
    | cons p pr =>
      rw [List.cons_append] at hw
      obtain ⟨hp1, hp2⟩ := List.cons_eq_cons.mp hw
      obtain ⟨rfl, -⟩ : pr = [] ∧ w = [] := List.append_eq_nil.mp hp2
      subst hp1
      simp [List.isPrefixOf] at hpre

/-! ## Joins: strings that are concatenations of grammar units -/

/-- `Joins U s`: `s` is a concatenation of blocks each satisfying `U`. -/
inductive Joins (U : List Char → Prop) : List Char → Prop where
  | nil : Joins U []
  | cons {u t : List Char} : U u → Joins U t → Joins U (u ++ t)

theorem joins_append {U : List Char → Prop} :
    ∀ {a b : List Char}, Joins U a → Joins U b → Joins U (a ++ b) := by
  intro a b ha hb
  induction ha with
  | nil => simpa using hb
  | cons hu _ ih =>
    rw [List.append_assoc]
    exact Joins.cons hu ih

theorem joins_singletons {U : List Char → Prop} :
    ∀ {l : List Char}, (∀ c ∈ l, U [c]) → Joins U l := by
  intro l
  induction l with
  | nil => intro _; exact Joins.nil
  | cons c cs ih =>
    intro h
    exact Joins.cons (u := [c]) (h c (by simp)) (ih fun x hx => h x (by simp [hx]))

theorem joins_inv {U : List Char → Prop} {s : List Char}
    (hne : ∀ u, U u → u ≠ []) (h : Joins U s) :
    s = [] ∨ ∃ u t, U u ∧ Joins U t ∧ s = u ++ t ∧ u ≠ [] := by
  cases h with
  | nil => exact Or.inl rfl
  | cons hu ht => exact Or.inr ⟨_, _, hu, ht, rfl, hne _ hu⟩

theorem joins_mono {U V : List Char → Prop} (h : ∀ u, U u → V u) :
    ∀ {s : List Char}, Joins U s → Joins V s := by
  intro s hs
  induction hs with
  | nil => exact Joins.nil
  | cons hu _ ih => exact Joins.cons (h _ hu) ih

/-- Dropping a run of pattern-alphabet characters from a join leaves a join:
multi-character units either avoid the pattern alphabet entirely or decompose
into singleton units, so a cut never strands half of an indivisible unit. -/
theorem joins_drop {U : List Char → Prop} {pat : List Char}
    (hne : ∀ u, U u → u ≠ [])
    (hat : ∀ u, U u → 2 ≤ u.length → (∀ c ∈ u, c ∉ pat) ∨ (∀ c ∈ u, U [c])) :
    ∀ (n : Nat) (s : List Char), Joins U s → (∀ c ∈ s.take n, c ∈ pat) →
      Joins U (s.drop n) := by
  intro n
  induction n with
  | zero => intro s hs _; exact hs
  | succ n ih =>
    intro s hs htake
    rcases joins_inv hne hs with rfl | ⟨u, t, hu, ht, rfl, hune⟩
    · exact Joins.nil
    · cases u with
      | nil => exact absurd rfl hune
      | cons c u' =>
        have hcpat : c ∈ pat := htake c (by simp)
        cases u' with
        | nil =>
          have h1 : Joins U (t.drop n) := by
            refine ih t ht ?_
            intro x hx
            refine htake x ?_
            simpa using Or.inr hx
          simpa using h1
        | cons c2 u'' =>
          rcases hat _ hu (by simp) with havoid | hdec
          · exact absurd hcpat (havoid c (by simp))
          · have hrest : Joins U ((c2 :: u'') ++ t) :=
              joins_append (joins_singletons (fun x hx => hdec x (by simp [hx]))) ht
            have h1 : Joins U (((c2 :: u'') ++ t).drop n) := by
              refine ih _ hrest ?_
              intro x hx
              refine htake x ?_
              rw [List.cons_append, List.take_succ_cons]
              simpa using Or.inr hx
            rw [List.cons_append, List.drop_succ_cons]
            rwa [List.cons_append] at h1

/-- A block whose characters avoid the pattern alphabet passes through the
scan untouched. -/
theorem replaceAll_shift_avoid (pat repl : List Char) (hpat : pat ≠ []) :
    ∀ (u t : List Char), (∀ c ∈ u, c ∉ pat) →
      replaceAll pat repl (u ++ t) = u ++ replaceAll pat repl t := by
  intro u
  induction u with
  | nil => intro t _; rfl
  | cons c u' ih =>
    intro t h
    have hnm : pat.isPrefixOf (c :: (u' ++ t)) = false := by
      cases pat with
      | nil => exact absurd rfl hpat
      | cons p pr =>
        rw [List.isPrefixOf]
        cases hpc : p == c with
        | false => simp
        | true =>
          exact absurd (beq_iff_eq.mp hpc ▸ List.mem_cons_self p pr)
            (h c (by simp))
    rw [List.cons_append, replaceAll_nomatch pat repl c (u' ++ t) hnm,
      ih t (fun x hx => h x (by simp [hx]))]
    rfl

/-- The one-step grammar transformer: a unit of the output grammar is either
an old unit that the pattern is not a prefix of, or the replacement text. -/
def stepU (U : List Char → Prop) (pat repl : List Char) (u : List Char) : Prop :=
  (U u ∧ pat.isPrefixOf u = false) ∨ u = repl

theorem replaceAll_joins_aux (pat repl : List Char) (U : List Char → Prop)
    (hpat : pat ≠ [])
    (hne : ∀ u, U u → u ≠ [])
    (hat : ∀ u, U u → 2 ≤ u.length → (∀ c ∈ u, c ∉ pat) ∨ (∀ c ∈ u, U [c])) :
    ∀ (n : Nat) (s : List Char), s.length ≤ n → Joins U s →
      Joins (stepU U pat repl) (replaceAll pat repl s) := by
  intro n
  induction n with
  | zero =>
    intro s hlen hs
    have h0 : s = [] := List.length_eq_zero.mp (Nat.le_zero.mp hlen)
    subst h0
    exact Joins.nil
  | succ n ih =>
    intro s hlen hs
    rcases joins_inv hne hs with rfl | ⟨u, t, hu, ht, rfl, hune⟩
    · exact Joins.nil
    · by_cases hpre : pat.isPrefixOf (u ++ t) = true
      · rw [replaceAll_match pat repl _ hpat hpre]
        refine Joins.cons (u := repl) (Or.inr rfl) ?_
        refine ih _ ?_ ?_
        · have h1 : 1 ≤ pat.length := by
            cases pat with
            | nil => exact absurd rfl hpat
            | cons p pr => simp
          have h2 : 1 ≤ (u ++ t).length := by
            cases u with
            | nil => exact absurd rfl hune
            | cons a u2 => simp
          rw [List.length_drop]
          omega
        · refine joins_drop hne hat pat.length _ hs ?_
          intro c hc
          have htk : (u ++ t).take pat.length = pat := by
            obtain ⟨w, hw⟩ := List.isPrefixOf_iff_prefix.mp hpre
            rw [← hw, List.take_left]
          rwa [htk] at hc
      · rw [Bool.not_eq_true] at hpre
        cases u with
        | nil => exact absurd rfl hune
        | cons c u' =>
          cases u' with
          | nil =>
            rw [List.singleton_append] at hpre ⊢
            rw [replaceAll_nomatch pat repl c t hpre]
            exact Joins.cons (u := [c])
              (Or.inl ⟨hu, singleton_prefix_false hpat hpre⟩)
              (ih t (by simp at hlen; omega) ht)
          | cons c2 u'' =>
            rcases hat _ hu (by simp) with havoid | hdec
            · rw [replaceAll_shift_avoid pat repl hpat _ t havoid]
              have hupre : pat.isPrefixOf (c :: c2 :: u'') = false := by
                cases hps : pat.isPrefixOf (c :: c2 :: u'') with
                | false => rfl
                | true =>
                  cases pat with
                  | nil => exact absurd rfl hpat
                  | cons p pr =>
                    rw [List.isPrefixOf] at hps
                    have hpc : p = c := by
                      cases hb : p == c with
                      | false => rw [hb] at hps; simp at hps
                      | true => exact beq_iff_eq.mp hb
                    exact absurd (hpc ▸ List.mem_cons_self p pr)
                      (havoid c (by simp))
              exact Joins.cons (u := c :: c2 :: u'') (Or.inl ⟨hu, hupre⟩)
                (ih t (by simp [List.length_append] at hlen; omega) ht)
            · have hrest : Joins U ((c2 :: u'') ++ t) :=
                joins_append
                  (joins_singletons (fun x hx => hdec x (by simp [hx]))) ht
              rw [List.cons_append] at hpre ⊢
              rw [replaceAll_nomatch pat repl c _ hpre]
              exact Joins.cons (u := [c])
                (Or.inl ⟨hdec c (by simp), singleton_prefix_false hpat hpre⟩)
                (ih _ (by simp [List.length_append] at hlen ⊢; omega) hrest)

theorem replaceAll_joins (pat repl : List Char) (U : List Char → Prop)
    (hpat : pat ≠ [])
    (hne : ∀ u, U u → u ≠ [])
    (hat : ∀ u, U u → 2 ≤ u.length → (∀ c ∈ u, c ∉ pat) ∨ (∀ c ∈ u, U [c]))
    (s : List Char) (hs : Joins U s) :
    Joins (stepU U pat repl) (replaceAll pat repl s) :=
  replaceAll_joins_aux pat repl U hpat hne hat s.length s le_rfl hs

/-! ## The unit grammars of the seven pipeline stages -/

/-- A non-metacharacter copied through `escapeRegex` unchanged. -/
def PlainU (u : List Char) : Prop := ∃ c, c ∉ metaChars ∧ u = [c]

/-- An escaped metacharacter emitted by `escapeRegex`. -/
def EscU (u : List Char) : Prop := ∃ c, c ∈ metaChars ∧ u = ['\\', c]

def U0 (u : List Char) : Prop := PlainU u ∨ EscU u

def U1 : List Char → Prop := stepU U0 "**/".data dsSlashMarker

def U2 : List Char → Prop := stepU U1 "/**".data slashDsMarker

def U3 : List Char → Prop := stepU U2 "**".data dsMarker

def U4 : List Char → Prop := stepU U3 "*".data "[^/]*".data

def U5 : List Char → Prop := stepU U4 dsSlashMarker "(?:.*/)?".data

def U6 : List Char → Prop := stepU U5 slashDsMarker "/.*".data

def U7 : List Char → Prop := stepU U6 dsMarker ".*".data

theorem stepU_ne {U : List Char → Prop} {pat repl : List Char}
    (hU : ∀ u, U u → u ≠ []) (hr : repl ≠ []) :
    ∀ u, stepU U pat repl u → u ≠ [] := by
  rintro u (⟨hu, -⟩ | rfl)
  · exact hU u hu
  · exact hr

theorem U0_ne : ∀ u, U0 u → u ≠ [] := by
  rintro u (⟨c, -, rfl⟩ | ⟨c, -, rfl⟩) <;> simp

theorem U1_ne : ∀ u, U1 u → u ≠ [] := stepU_ne U0_ne (by decide)

theorem U2_ne : ∀ u, U2 u → u ≠ [] := stepU_ne U1_ne (by decide)

theorem U3_ne : ∀ u, U3 u → u ≠ [] := stepU_ne U2_ne (by decide)

theorem U4_ne : ∀ u, U4 u → u ≠ [] := stepU_ne U3_ne (by decide)

theorem U5_ne : ∀ u, U5 u → u ≠ [] := stepU_ne U4_ne (by decide)

theorem U6_ne : ∀ u, U6 u → u ≠ [] := stepU_ne U5_ne (by decide)

theorem stepU_cases {U : List Char → Prop} {pat repl u : List Char}
    (h : stepU U pat repl u) : U u ∨ u = repl := by
  rcases h with ⟨hu, -⟩ | rfl
  · exact Or.inl hu
  · exact Or.inr rfl

theorem isPrefixOf_two_singleton (p q : Char) (pr : List Char) (c : Char) :
    (p :: q :: pr).isPrefixOf [c] = false := by
  simp [List.isPrefixOf]

theorem isPrefixOf_one_singleton (p c : Char) : [p].isPrefixOf [c] = (p == c) := by
  simp [List.isPrefixOf]

theorem isPrefixOf_singleton_of_len {pat : List Char} (h : 2 ≤ pat.length)
    (c : Char) : pat.isPrefixOf [c] = false := by
  cases pat with
  | nil => simp at h
  | cons p pr =>
    cases pr with
    | nil => simp at h
    | cons q pr2 => exact isPrefixOf_two_singleton p q pr2 c

theorem U1_single {c : Char} (h1 : c ∉ metaChars) : U1 [c] :=
  Or.inl ⟨Or.inl ⟨c, h1, rfl⟩, isPrefixOf_singleton_of_len (by decide) c⟩

theorem U2_single {c : Char} (h1 : c ∉ metaChars) : U2 [c] :=
  Or.inl ⟨U1_single h1, isPrefixOf_singleton_of_len (by decide) c⟩

theorem U3_single {c : Char} (h1 : c ∉ metaChars) : U3 [c] :=
  Or.inl ⟨U2_single h1, isPrefixOf_singleton_of_len (by decide) c⟩

theorem U4_single {c : Char} (h1 : c ∉ metaChars) (h2 : ('*' == c) = false) :
    U4 [c] := by
  refine Or.inl ⟨U3_single h1, ?_⟩
  have he : "*".data = ['*'] := rfl
  rw [he, isPrefixOf_one_singleton]
  exact h2

theorem U5_single {c : Char} (h1 : c ∉ metaChars) (h2 : ('*' == c) = false) :
    U5 [c] :=
  Or.inl ⟨U4_single h1 h2, isPrefixOf_singleton_of_len (by decide) c⟩

theorem U6_single {c : Char} (h1 : c ∉ metaChars) (h2 : ('*' == c) = false) :
    U6 [c] :=
  Or.inl ⟨U5_single h1 h2, isPrefixOf_singleton_of_len (by decide) c⟩

theorem U2_cases {u : List Char} (h : U2 u) :
    U0 u ∨ u = dsSlashMarker ∨ u = slashDsMarker := by
  rcases stepU_cases h with h1 | rfl
  · rcases stepU_cases h1 with h0 | rfl <;> tauto
  · tauto

theorem U3_cases {u : List Char} (h : U3 u) :
    U0 u ∨ u = dsSlashMarker ∨ u = slashDsMarker ∨ u = dsMarker := by
  rcases stepU_cases h with h2 | rfl
  · rcases U2_cases h2 with h | h | h <;> tauto
  · tauto

theorem U4_cases {u : List Char} (h : U4 u) :
    U0 u ∨ u = dsSlashMarker ∨ u = slashDsMarker ∨ u = dsMarker ∨
      u = "[^/]*".data := by
  rcases stepU_cases h with h3 | rfl
  · rcases U3_cases h3 with h | h | h | h <;> tauto
  · tauto

theorem U5_cases {u : List Char} (h : U5 u) :
    U0 u ∨ u = dsSlashMarker ∨ u = slashDsMarker ∨ u = dsMarker ∨
      u = "[^/]*".data ∨ u = "(?:.*/)?".data := by
  rcases stepU_cases h with h4 | rfl
  · rcases U4_cases h4 with h | h | h | h | h <;> tauto
  · tauto

theorem U6_cases {u : List Char} (h : U6 u) :
    U0 u ∨ u = dsSlashMarker ∨ u = slashDsMarker ∨ u = dsMarker ∨
      u = "[^/]*".data ∨ u = "(?:.*/)?".data ∨ u = "/.*".data := by
  rcases stepU_cases h with h5 | rfl
  · rcases U5_cases h5 with h | h | h | h | h | h <;> tauto
  · tauto

theorem esc_avoid {pat : List Char} (hb : '\\' ∉ pat)
    (hm : ∀ m ∈ metaChars, m ∉ pat) {c : Char} (hc : c ∈ metaChars) :
    ∀ x ∈ ['\\', c], x ∉ pat := by
  intro x hx
  rcases List.mem_pair.mp hx with rfl | rfl
  · exact hb
  · exact hm _ hc

theorem hat1 : ∀ u, U0 u → 2 ≤ u.length →
    (∀ c ∈ u, c ∉ "**/".data) ∨ (∀ c ∈ u, U0 [c]) := by
  rintro u (⟨c, hc, rfl⟩ | ⟨c, hc, rfl⟩) hlen
  · simp at hlen
  · exact Or.inl (esc_avoid (by decide) (by decide) hc)

theorem hat2 : ∀ u, U1 u → 2 ≤ u.length →
    (∀ c ∈ u, c ∉ "/**".data) ∨ (∀ c ∈ u, U1 [c]) := by
  intro u hu hlen
  rcases stepU_cases hu with h0 | rfl
  · rcases h0 with ⟨c, hc, rfl⟩ | ⟨c, hc, rfl⟩
    · simp at hlen
    · exact Or.inl (esc_avoid (by decide) (by decide) hc)
  · exact Or.inl (by decide)

theorem hat3 : ∀ u, U2 u → 2 ≤ u.length →
    (∀ c ∈ u, c ∉ "**".data) ∨ (∀ c ∈ u, U2 [c]) := by
  intro u hu hlen
  rcases U2_cases hu with h0 | rfl | rfl
  · rcases h0 with ⟨c, hc, rfl⟩ | ⟨c, hc, rfl⟩
    · simp at hlen
    · exact Or.inl (esc_avoid (by decide) (by decide) hc)
  · exact Or.inl (by decide)
  · exact Or.inl (by decide)

theorem hat4 : ∀ u, U3 u → 2 ≤ u.length →
    (∀ c ∈ u, c ∉ "*".data) ∨ (∀ c ∈ u, U3 [c]) := by
  intro u hu hlen
  rcases U3_cases hu with h0 | rfl | rfl | rfl
  · rcases h0 with ⟨c, hc, rfl⟩ | ⟨c, hc, rfl⟩
    · simp at hlen
    · exact Or.inl (esc_avoid (by decide) (by decide) hc)
  · exact Or.inl (by decide)
  · exact Or.inl (by decide)
  · exact Or.inl (by decide)

theorem hat5 : ∀ u, U4 u → 2 ≤ u.length →
    (∀ c ∈ u, c ∉ dsSlashMarker) ∨ (∀ c ∈ u, U4 [c]) := by
  intro u hu hlen
  rcases U4_cases hu with h0 | rfl | rfl | rfl | rfl
  · rcases h0 with ⟨c, hc, rfl⟩ | ⟨c, hc, rfl⟩
    · simp at hlen
    · exact Or.inl (esc_avoid (by decide) (by decide) hc)
  · refine Or.inr fun c hc => U4_single ?_ ?_
    · exact (by decide : ∀ x ∈ dsSlashMarker, x ∉ metaChars) c hc
    · exact (by decide : ∀ x ∈ dsSlashMarker, ('*' == x) = false) c hc
  · refine Or.inr fun c hc => U4_single ?_ ?_
    · exact (by decide : ∀ x ∈ slashDsMarker, x ∉ metaChars) c hc
    · exact (by decide : ∀ x ∈ slashDsMarker, ('*' == x) = false) c hc
  · refine Or.inr fun c hc => U4_single ?_ ?_
    · exact (by decide : ∀ x ∈ dsMarker, x ∉ metaChars) c hc
    · exact (by decide : ∀ x ∈ dsMarker, ('*' == x) = false) c hc
  · exact Or.inl (by decide)

theorem hat6 : ∀ u, U5 u → 2 ≤ u.length →
    (∀ c ∈ u, c ∉ slashDsMarker) ∨ (∀ c ∈ u, U5 [c]) := by
  intro u hu hlen
  rcases U5_cases hu with h0 | rfl | rfl | rfl | rfl | rfl
  · rcases h0 with ⟨c, hc, rfl⟩ | ⟨c, hc, rfl⟩
    · simp at hlen
    · exact Or.inl (esc_avoid (by decide) (by decide) hc)
  · refine Or.inr fun c hc => U5_single ?_ ?_
    · exact (by decide : ∀ x ∈ dsSlashMarker, x ∉ metaChars) c hc
    · exact (by decide : ∀ x ∈ dsSlashMarker, ('*' == x) = false) c hc
  · refine Or.inr fun c hc => U5_single ?_ ?_
    · exact (by decide : ∀ x ∈ slashDsMarker, x ∉ metaChars) c hc
    · exact (by decide : ∀ x ∈ slashDsMarker, ('*' == x) = false) c hc
  · refine Or.inr fun c hc => U5_single ?_ ?_
    · exact (by decide : ∀ x ∈ dsMarker, x ∉ metaChars) c hc
    · exact (by decide : ∀ x ∈ dsMarker, ('*' == x) = false) c hc
  · exact Or.inl (by decide)
  · exact Or.inl (by decide)

theorem hat7 : ∀ u, U6 u → 2 ≤ u.length →
    (∀ c ∈ u, c ∉ dsMarker) ∨ (∀ c ∈ u, U6 [c]) := by
  intro u hu hlen
  rcases U6_cases hu with h0 | rfl | rfl | rfl | rfl | rfl | rfl
  · rcases h0 with ⟨c, hc, rfl⟩ | ⟨c, hc, rfl⟩
    · simp at hlen
    · exact Or.inl (esc_avoid (by decide) (by decide) hc)
  · refine Or.inr fun c hc => U6_single ?_ ?_
    · exact (by decide : ∀ x ∈ dsSlashMarker, x ∉ metaChars) c hc
    · exact (by decide : ∀ x ∈ dsSlashMarker, ('*' == x) = false) c hc
  · refine Or.inr fun c hc => U6_single ?_ ?_
    · exact (by decide : ∀ x ∈ slashDsMarker, x ∉ metaChars) c hc
    · exact (by decide : ∀ x ∈ slashDsMarker, ('*' == x) = false) c hc
  · refine Or.inr fun c hc => U6_single ?_ ?_
    · exact (by decide : ∀ x ∈ dsMarker, x ∉ metaChars) c hc
    · exact (by decide : ∀ x ∈ dsMarker, ('*' == x) = false) c hc
  · exact Or.inl (by decide)
  · exact Or.inl (by decide)
  · exact Or.inl (by decide)

theorem escapeRegex_joins (s : List Char) : Joins U0 (escapeRegex s) := by
  induction s with
  | nil => exact Joins.nil
  | cons c cs ih =>
    show Joins U0
      ((c :: cs).flatMap fun c => if c ∈ metaChars then ['\\', c] else [c])
    rw [List.flatMap_cons]
    by_cases h : c ∈ metaChars
    · rw [if_pos h]
      exact Joins.cons (Or.inr ⟨c, h, rfl⟩) ih
    · rw [if_neg h]
      exact Joins.cons (Or.inl ⟨c, h, rfl⟩) ih

/-- The seven-stage replacement pipeline inside `toRegexChars`. -/
def pipe (p : List Char) : List Char :=
  replaceAll dsMarker ".*".data
    (replaceAll slashDsMarker "/.*".data
      (replaceAll dsSlashMarker "(?:.*/)?".data
        (replaceAll "*".data "[^/]*".data
          (replaceAll "**".data dsMarker
            (replaceAll "/**".data slashDsMarker
              (replaceAll "**/".data dsSlashMarker (escapeRegex p)))))))

theorem toRegexChars_eq (p : List Char) :
    toRegexChars p = '^' :: (pipe p ++ ['$']) := rfl

theorem pipe_joins (p : List Char) : Joins U7 (pipe p) := by
  have h0 := escapeRegex_joins p
  have h1 := replaceAll_joins "**/".data dsSlashMarker U0 (by decide) U0_ne hat1 _ h0
  have h2 := replaceAll_joins "/**".data slashDsMarker U1 (by decide) U1_ne hat2 _ h1
  have h3 := replaceAll_joins "**".data dsMarker U2 (by decide) U2_ne hat3 _ h2
  have h4 := replaceAll_joins "*".data "[^/]*".data U3 (by decide) U3_ne hat4 _ h3
  have h5 := replaceAll_joins dsSlashMarker "(?:.*/)?".data U4 (by decide) U4_ne hat5 _ h4
  have h6 := replaceAll_joins slashDsMarker "/.*".data U5 (by decide) U5_ne hat6 _ h5
  have h7 := replaceAll_joins dsMarker ".*".data U6 (by decide) U6_ne hat7 _ h6
  exact h7

/-! ## Every unit parses, so the whole source parses -/

theorem U7_cases {u : List Char} (h : U7 u) :
    (∃ c, c ∉ metaChars ∧ ('*' == c) = false ∧ u = [c]) ∨
    (∃ c, c ∈ metaChars ∧ u = ['\\', c]) ∨
    u = "[^/]*".data ∨ u = "(?:.*/)?".data ∨ u = "/.*".data ∨ u = ".*".data := by
  rcases h with ⟨h6, hp7⟩ | rfl
  · rcases h6 with ⟨h5, hp6⟩ | rfl
    · rcases h5 with ⟨h4, hp5⟩ | rfl
      · rcases h4 with ⟨h3, hp4⟩ | rfl
        · rcases h3 with ⟨h2, -⟩ | rfl
          · rcases h2 with ⟨h1, -⟩ | rfl
            · rcases h1 with ⟨h0, -⟩ | rfl
              · rcases h0 with ⟨c, hc, rfl⟩ | hesc
                · refine Or.inl ⟨c, hc, ?_, rfl⟩
                  have he : "*".data = ['*'] := rfl
                  rw [he, isPrefixOf_one_singleton] at hp4
                  exact hp4
                · tauto
              · exact absurd hp5 (by decide)
            · exact absurd hp6 (by decide)
          · exact absurd hp7 (by decide)
        · tauto
      · tauto
    · tauto
  · tauto

theorem pstep_plain (c : Char) (h1 : c ∉ metaChars) (h2 : ('*' == c) = false)
    (cur : List Reg) (stk : List (List Reg)) :
    ∃ cur1, pstep (some ⟨.normal, cur, stk⟩) c = some ⟨.normal, cur1, stk⟩ := by
  have hne : ∀ x ∈ metaChars, ¬ c = x := fun x hx h => h1 (h ▸ hx)
  show ∃ cur1, normalStep ⟨.normal, cur, stk⟩ c = some ⟨.normal, cur1, stk⟩
  rw [normalStep]
  rw [if_neg (hne '\\' (by decide)), if_neg (hne '[' (by decide)),
    if_neg (hne '(' (by decide)), if_neg (hne ')' (by decide)),
    if_neg (show ¬ c = '*' by intro h; rw [h] at h2; simp at h2),
    if_neg (hne '?' (by decide)), if_neg (hne '+' (by decide))]
  by_cases hdot : c = '.'
  · subst hdot
    rw [if_pos rfl]
    exact ⟨.dot :: cur, rfl⟩
  · rw [if_neg hdot, if_neg ?hors]
    · exact ⟨.lit c :: cur, rfl⟩
    case hors =>
      rintro (h | h | h | h | h)
      · exact hne '^' (by decide) h
      · exact hne '$' (by decide) h
      · exact hne '|' (by decide) h
      · exact hne '\x7b' (by decide) h
      · exact hne '\x7d' (by decide) h

theorem foldl_token_plain {c : Char} (h1 : c ∉ metaChars)
    (h2 : ('*' == c) = false) (cur : List Reg) (stk : List (List Reg)) :
    ∃ cur1, [c].foldl pstep (some ⟨.normal, cur, stk⟩) =
      some ⟨.normal, cur1, stk⟩ := by
  obtain ⟨cur1, h⟩ := pstep_plain c h1 h2 cur stk
  exact ⟨cur1, by simpa using h⟩

theorem foldl_token_esc (c : Char) (cur : List Reg) (stk : List (List Reg)) :
    ∃ cur1, ['\\', c].foldl pstep (some ⟨.normal, cur, stk⟩) =
      some ⟨.normal, cur1, stk⟩ :=
  ⟨.lit c :: cur, rfl⟩

theorem foldl_token_cls (cur : List Reg) (stk : List (List Reg)) :
    ∃ cur1, "[^/]*".data.foldl pstep (some ⟨.normal, cur, stk⟩) =
      some ⟨.normal, cur1, stk⟩ :=
  ⟨.star (.cls true ['/']) :: cur, rfl⟩

theorem foldl_token_group (cur : List Reg) (stk : List (List Reg)) :
    ∃ cur1, "(?:.*/)?".data.foldl pstep (some ⟨.normal, cur, stk⟩) =
      some ⟨.normal, cur1, stk⟩ :=
  ⟨.alt .eps (.seq (.star .dot) (.seq (.lit '/') .eps)) :: cur, rfl⟩

theorem foldl_token_slashdot (cur : List Reg) (stk : List (List Reg)) :
    ∃ cur1, "/.*".data.foldl pstep (some ⟨.normal, cur, stk⟩) =
      some ⟨.normal, cur1, stk⟩ :=
  ⟨.star .dot :: .lit '/' :: cur, rfl⟩

theorem foldl_token_dotstar (cur : List Reg) (stk : List (List Reg)) :
    ∃ cur1, ".*".data.foldl pstep (some ⟨.normal, cur, stk⟩) =
      some ⟨.normal, cur1, stk⟩ :=
  ⟨.star .dot :: cur, rfl⟩

theorem joins_foldl_normal {s : List Char} (hs : Joins U7 s) :
    ∀ (cur : List Reg) (stk : List (List Reg)),
      ∃ cur1, s.foldl pstep (some ⟨.normal, cur, stk⟩) =
        some ⟨.normal, cur1, stk⟩ := by
  induction hs with
  | nil => intro cur stk; exact ⟨cur, rfl⟩
  | cons hu ht ih =>
    intro cur stk
    rw [List.foldl_append]
    rcases U7_cases hu with ⟨c, h1, h2, rfl⟩ | ⟨c, hc, rfl⟩ | rfl | rfl | rfl | rfl
    · obtain ⟨cur1, h⟩ := foldl_token_plain h1 h2 cur stk
      rw [h]
      exact ih cur1 stk
    · obtain ⟨cur1, h⟩ := foldl_token_esc c cur stk
      rw [h]
      exact ih cur1 stk
    · obtain ⟨cur1, h⟩ := foldl_token_cls cur stk
      rw [h]
      exact ih cur1 stk
    · obtain ⟨cur1, h⟩ := foldl_token_group cur stk
      rw [h]
      exact ih cur1 stk
    · obtain ⟨cur1, h⟩ := foldl_token_slashdot cur stk
      rw [h]
      exact ih cur1 stk
    · obtain ⟨cur1, h⟩ := foldl_token_dotstar cur stk
      rw [h]
      exact ih cur1 stk

theorem parseBody_pipe (p : List Char) : ∃ r, parseBody (pipe p) = some r := by
  obtain ⟨cur1, h⟩ := joins_foldl_normal (pipe_joins p) [] []
  refine ⟨catList cur1.reverse, ?_⟩
  show parseFinish ((pipe p).foldl pstep (some ⟨.normal, [], []⟩)) = _
  rw [h]
  rfl

theorem compileRegex_eq (rest : List Char) (h : rest.getLast? = some '$') :
    compileRegex ('^' :: rest) = parseBody rest.dropLast := by
  show (match rest.getLast? with
    | some '$' => parseBody rest.dropLast
    | _ => none) = parseBody rest.dropLast
  rw [h]
  rfl

theorem compileRegex_total (p : List Char) :
    ∃ r, compileRegex (toRegexChars p) = some r := by
  obtain ⟨r, hr⟩ := parseBody_pipe p
  refine ⟨r, ?_⟩
  rw [toRegexChars_eq, compileRegex_eq _ (List.getLast?_concat _),
    List.dropLast_concat]
  exact hr

/-- C8: for every pattern string (including malformed ones) and every path
string, `matchPattern` returns a Boolean rather than throwing: the regex
source built by the translation always compiles. -/
theorem c8_matcher_never_throws :
    ∀ (filePath pattern : String), (matchPattern filePath pattern).isSome = true := by
  intro f p
  obtain ⟨r, hr⟩ := compileRegex_total p.data
  unfold matchPattern
  rw [hr]
  rfl



/-! ## Occurrence lemmas for `occursIn` -/

theorem occursIn_cons (pat : List Char) (c : Char) (cs : List Char) :
    occursIn pat (c :: cs) = (pat.isPrefixOf (c :: cs) || occursIn pat cs) := rfl

theorem occursIn_iff (pat : List Char) :
    ∀ (s : List Char), occursIn pat s = true ↔ ∃ a b, s = a ++ pat ++ b := by
  intro s
  induction s with
  | nil =>
    cases pat with
    | nil =>
      constructor
      · intro _; exact ⟨[], [], rfl⟩
      · intro _; rfl
    | cons p pr =>
      constructor
      · intro h; exact absurd h (by simp [occursIn])
      · rintro ⟨a, b, h⟩
        exact absurd h.symm (by simp)
  | cons c cs ih =>
    rw [occursIn_cons, Bool.or_eq_true]
    constructor
    · rintro (h | h)
      · obtain ⟨w, hw⟩ := List.isPrefixOf_iff_prefix.mp h
        exact ⟨[], w, by rw [← hw]; rfl⟩
      · obtain ⟨a, b, hab⟩ := ih.mp h
        exact ⟨c :: a, b, by rw [hab]; rfl⟩
    · rintro ⟨a, b, hab⟩
      cases a with
      | nil =>
        left
        refine List.isPrefixOf_iff_prefix.mpr ⟨b, ?_⟩
        rw [hab]
        rfl
      | cons a0 a' =>
        right
        refine ih.mpr ⟨a', b, ?_⟩
        have h2 : c :: cs = a0 :: (a' ++ pat ++ b) := by rw [hab]; rfl
        exact (List.cons_eq_cons.mp h2).2

theorem replaceAll_no_occur (pat repl : List Char) :
    ∀ (s : List Char), occursIn pat s = false → replaceAll pat repl s = s := by
  intro s
  induction s with
  | nil => intro _; rfl
  | cons c cs ih =>
    intro h
    rw [occursIn_cons, Bool.or_eq_false_iff] at h
    rw [replaceAll_nomatch pat repl c cs h.1, ih h.2]

theorem isPrefixOf_drop_occurs {pat s : List Char} {p : Nat}
    (h : pat.isPrefixOf (s.drop p) = true) : occursIn pat s = true := by
  obtain ⟨w, hw⟩ := List.isPrefixOf_iff_prefix.mp h
  refine (occursIn_iff pat s).mpr ⟨s.take p, w, ?_⟩
  rw [List.append_assoc, hw, List.take_append_drop]

theorem occurs_sub {x w s a b : List Char} (hx : occursIn x s = true)
    (hw : x = a ++ w ++ b) : occursIn w s = true := by
  obtain ⟨p, q, hpq⟩ := (occursIn_iff x s).mp hx
  refine (occursIn_iff w s).mpr ⟨p ++ a, b ++ q, ?_⟩
  rw [hpq, hw]
  simp [List.append_assoc]

/-! ## How occurrences move through `escapeRegex` -/

theorem escapeRegex_cons (c : Char) (s : List Char) :
    escapeRegex (c :: s) =
      (if c ∈ metaChars then ['\\', c] else [c]) ++ escapeRegex s := by
  show (c :: s).flatMap _ = _
  rw [List.flatMap_cons]
  rfl

theorem escapeRegex_append (a b : List Char) :
    escapeRegex (a ++ b) = escapeRegex a ++ escapeRegex b := by
  show (a ++ b).flatMap _ = _
  rw [List.flatMap_append]
  rfl

theorem mem_escapeRegex {c : Char} {d : List Char} (h : c ∈ escapeRegex d) :
    c = '\\' ∨ c ∈ d := by
  obtain ⟨x, hx, hcx⟩ := List.mem_flatMap.mp h
  by_cases hm : x ∈ metaChars
  · rw [if_pos hm] at hcx
    rcases List.mem_pair.mp hcx with rfl | rfl
    · exact Or.inl rfl
    · exact Or.inr hx
  · rw [if_neg hm] at hcx
    have h2 := List.mem_singleton.mp hcx
    subst h2
    exact Or.inr hx

theorem isPrefixOf_cons_cons (a b : Char) (w t : List Char) :
    (a :: w).isPrefixOf (b :: t) = (a == b && w.isPrefixOf t) := rfl

/-- A metacharacter-free word is a prefix of the escaped string only if it
is a prefix of the original. -/
theorem escape_isPrefixOf {w : List Char} (hw : ∀ c ∈ w, c ∉ metaChars) :
    ∀ d : List Char, w.isPrefixOf (escapeRegex d) = true →
      w.isPrefixOf d = true := by
  induction w with
  | nil => intro d _; cases d <;> rfl
  | cons a w' ih =>
    intro d h
    cases d with
    | nil =>
      rw [show escapeRegex [] = [] from rfl] at h
      simp [List.isPrefixOf] at h
    | cons c d' =>
      rw [escapeRegex_cons] at h
      by_cases hm : c ∈ metaChars
      · rw [if_pos hm] at h
        have h2 : (a :: w').isPrefixOf ('\\' :: (c :: escapeRegex d')) = true := h
        rw [isPrefixOf_cons_cons, Bool.and_eq_true] at h2
        have ha : a = '\\' := beq_iff_eq.mp h2.1
        exact absurd (by rw [ha]; decide : a ∈ metaChars) (hw a (by simp))
      · rw [if_neg hm, List.singleton_append] at h
        rw [isPrefixOf_cons_cons, Bool.and_eq_true] at h
        rw [isPrefixOf_cons_cons, Bool.and_eq_true]
        exact ⟨h.1, ih (fun x hx => hw x (by simp [hx])) d' h.2⟩

/-- A metacharacter-free word occurring in the escaped string occurs in the
original. -/
theorem occurs_escape {w : List Char} (hw : ∀ c ∈ w, c ∉ metaChars)
    (hne : w ≠ []) :
    ∀ d : List Char, occursIn w (escapeRegex d) = true → occursIn w d = true := by
  intro d
  induction d with
  | nil =>
    intro h
    rw [show escapeRegex [] = [] from rfl] at h
    cases w with
    | nil => exact absurd rfl hne
    | cons a w' => exact absurd h (by simp [occursIn])
  | cons c d' ih =>
    intro h
    rw [escapeRegex_cons] at h
    cases w with
    | nil => exact absurd rfl hne
    | cons a w' =>
      by_cases hm : c ∈ metaChars
      · rw [if_pos hm] at h
        have h2 : occursIn (a :: w') ('\\' :: (c :: escapeRegex d')) = true := h
        rw [occursIn_cons, Bool.or_eq_true] at h2
        rcases h2 with h2 | h2
        · rw [isPrefixOf_cons_cons, Bool.and_eq_true] at h2
          have ha : a = '\\' := beq_iff_eq.mp h2.1
          exact absurd (by rw [ha]; decide : a ∈ metaChars) (hw a (by simp))
        · rw [occursIn_cons, Bool.or_eq_true] at h2
          rcases h2 with h2 | h2
          · rw [isPrefixOf_cons_cons, Bool.and_eq_true] at h2
            have ha : a = c := beq_iff_eq.mp h2.1
            exact absurd (ha ▸ hm) (hw a (by simp))
          · rw [occursIn_cons, Bool.or_eq_true]
            exact Or.inr (ih h2)
      · rw [if_neg hm, List.singleton_append] at h
        rw [occursIn_cons, Bool.or_eq_true] at h
        rcases h with h | h
        · have hp : (a :: w').isPrefixOf (escapeRegex (c :: d')) = true := by
            rw [escapeRegex_cons, if_neg hm, List.singleton_append]
            exact h
          rw [occursIn_cons, Bool.or_eq_true]
          exact Or.inl (escape_isPrefixOf hw (c :: d') hp)
        · rw [occursIn_cons, Bool.or_eq_true]
          exact Or.inr (ih h)

/-! ## Shift lemmas: the scan passes over clean text unchanged -/

/-- A pattern starting with `*` never matches inside star-free text. -/
theorem replaceAll_shift_star0 (pat repl pr : List Char) (hpat : pat = '*' :: pr)
    (t : List Char) :
    ∀ e : List Char, (∀ c ∈ e, ¬ c = '*') →
      replaceAll pat repl (e ++ t) = e ++ replaceAll pat repl t := by
  intro e
  induction e with
  | nil => intro _; rfl
  | cons c e' ih =>
    intro h
    have hnm : pat.isPrefixOf (c :: (e' ++ t)) = false := by
      subst hpat
      cases hb : '*' == c with
      | false => rw [isPrefixOf_cons_cons, hb]; rfl
      | true => exact absurd (beq_iff_eq.mp hb).symm (h c (by simp))
    rw [List.cons_append, replaceAll_nomatch pat repl c (e' ++ t) hnm,
      ih (fun x hx => h x (by simp [hx]))]
    rfl

/-- A pattern whose second character is `*` never matches starting inside
star-free text when the following text does not begin with `*`. -/
theorem replaceAll_shift_star1 (pat repl : List Char) (a : Char) (pr : List Char)
    (hpat : pat = a :: '*' :: pr) (t : List Char) (ht : t.head? ≠ some '*') :
    ∀ e : List Char, (∀ c ∈ e, ¬ c = '*') →
      replaceAll pat repl (e ++ t) = e ++ replaceAll pat repl t := by
  intro e
  induction e with
  | nil => intro _; rfl
  | cons c e' ih =>
    intro h
    have hnm : pat.isPrefixOf (c :: (e' ++ t)) = false := by
      subst hpat
      rw [isPrefixOf_cons_cons]
      cases hb : a == c with
      | false => rfl
      | true =>
        rw [Bool.true_and]
        cases e' with
        | nil =>
          cases t with
          | nil => rfl
          | cons t0 t' =>
            rw [List.nil_append]
            rw [isPrefixOf_cons_cons]
            cases hb2 : '*' == t0 with
            | false => rfl
            | true =>
              have h2 : t0 = '*' := (beq_iff_eq.mp hb2).symm
              exact absurd (by rw [h2]; rfl : (t0 :: t').head? = some '*') ht
        | cons c2 e'' =>
          rw [List.cons_append, isPrefixOf_cons_cons]
          cases hb2 : '*' == c2 with
          | false => rfl
          | true =>
            exact absurd (beq_iff_eq.mp hb2).symm (h c2 (by simp))
    rw [List.cons_append, replaceAll_nomatch pat repl c (e' ++ t) hnm,
      ih (fun x hx => h x (by simp [hx]))]
    rfl

/-- If the pattern neither occurs inside `e` nor straddles the boundary
into `t`, the scan passes over `e` unchanged. -/
theorem replaceAll_shift_clean (pat repl : List Char) (hpat : pat ≠ [])
    (t : List Char) :
    ∀ e : List Char, occursIn pat e = false →
      (∀ k, 0 < k → k < pat.length → (pat.drop k).isPrefixOf t = true →
        occursIn (pat.take k) e = false) →
      replaceAll pat repl (e ++ t) = e ++ replaceAll pat repl t := by
  intro e
  induction e with
  | nil => intro _ _; rfl
  | cons c e' ih =>
    intro h1 h2
    have hfm : pat.isPrefixOf (c :: (e' ++ t)) = false := by
      cases hps : pat.isPrefixOf (c :: (e' ++ t)) with
      | false => rfl
      | true =>
        obtain ⟨w, hw⟩ := List.isPrefixOf_iff_prefix.mp hps
        have hw2 : pat ++ w = (c :: e') ++ t := hw
        rcases List.append_eq_append_iff.mp hw2 with ⟨v, hv1, hv2⟩ | ⟨v, hv1, hv2⟩
        · have hocc : occursIn pat (c :: e') = true :=
            (occursIn_iff pat (c :: e')).mpr ⟨[], v, by rw [hv1]; rfl⟩
          rw [hocc] at h1
          exact absurd h1 (by decide)
        · cases v with
          | nil =>
            rw [List.append_nil] at hv1
            have hocc : occursIn pat (c :: e') = true :=
              (occursIn_iff pat (c :: e')).mpr ⟨[], [], by rw [hv1]; simp⟩
            rw [hocc] at h1
            exact absurd h1 (by decide)
          | cons v0 v' =>
            have hklt : (c :: e').length < pat.length := by
              rw [hv1, List.length_append]
              simp
            have hdrop : pat.drop (c :: e').length = v0 :: v' := by
              rw [hv1, List.drop_left]
            have hpre : (pat.drop (c :: e').length).isPrefixOf t = true := by
              rw [hdrop]
              exact List.isPrefixOf_iff_prefix.mpr ⟨w, hv2.symm⟩
            have hclean := h2 (c :: e').length (by simp) hklt hpre
            have htake : pat.take (c :: e').length = c :: e' := by
              rw [hv1, List.take_left]
            rw [htake] at hclean
            have hT : occursIn (c :: e') (c :: e') = true :=
              (occursIn_iff _ _).mpr ⟨[], [], by simp⟩
            rw [hT] at hclean
            exact absurd hclean (by decide)
    have h1' := h1
    rw [occursIn_cons, Bool.or_eq_false_iff] at h1'
    rw [List.cons_append, replaceAll_nomatch pat repl c (e' ++ t) hfm,
      ih h1'.2 (fun k hk0 hklt hpre => by
        have h3 := h2 k hk0 hklt hpre
        rw [occursIn_cons, Bool.or_eq_false_iff] at h3
        exact h3.2)]
    rfl

/-! ## The translation of a pattern `d/**` for a clean directory name `d` -/

theorem marker_prefix_take_ds :
    ∀ k, k < 22 → 0 < k → (dsSlashMarker.drop k).isPrefixOf slashDsMarker = true →
      occursIn "DOUBLESTAR".data (dsSlashMarker.take k) = true := by decide

theorem marker_prefix_take_sds :
    ∀ k, k < 22 → 0 < k → (slashDsMarker.drop k).isPrefixOf slashDsMarker = true →
      occursIn "DOUBLESTAR".data (slashDsMarker.take k) = true := by decide

theorem marker_prefix_take_dsm :
    ∀ k, k < 16 → (dsMarker.drop k).isPrefixOf "/.*".data = false := by decide

/-- No string containing the letters `DOUBLESTAR` occurs in the escape of a
directory name free of that substring. -/
theorem no_marker_in_escape {d : List Char}
    (hD : occursIn "DOUBLESTAR".data d = false) {pat : List Char}
    (hdecomp : ∃ a b, pat = a ++ "DOUBLESTAR".data ++ b) :
    occursIn pat (escapeRegex d) = false := by
  cases hocc : occursIn pat (escapeRegex d) with
  | false => rfl
  | true =>
    obtain ⟨a, b, hab⟩ := hdecomp
    have h1 := occurs_sub hocc hab
    have h2 := occurs_escape (by decide) (by decide) d h1
    rw [h2] at hD
    exact absurd hD (by decide)

theorem no_take_in_escape {d : List Char}
    (hD : occursIn "DOUBLESTAR".data d = false) {x : List Char}
    (hx : occursIn "DOUBLESTAR".data x = true) :
    occursIn x (escapeRegex d) = false := by
  cases hocc : occursIn x (escapeRegex d) with
  | false => rfl
  | true =>
    obtain ⟨a, b, hab⟩ := (occursIn_iff _ _).mp hx
    have h1 := occurs_sub hocc hab
    have h2 := occurs_escape (by decide) (by decide) d h1
    rw [h2] at hD
    exact absurd hD (by decide)

theorem escape_star_free {d : List Char} (hstar : ∀ c ∈ d, ¬ c = '*') :
    ∀ c ∈ escapeRegex d, ¬ c = '*' := by
  intro c hc h
  rcases mem_escapeRegex hc with h2 | h2
  · rw [h] at h2
    exact absurd h2 (by decide)
  · exact hstar c h2 h

/-- For a star-free directory name with no `DOUBLESTAR` substring, the whole
translation pipeline turns `d ++ "/**"` into `escape(d) ++ "/.*"`. -/
theorem pipe_dir (d : List Char) (hstar : ∀ c ∈ d, ¬ c = '*')
    (hD : occursIn "DOUBLESTAR".data d = false) :
    pipe (d ++ "/**".data) = escapeRegex d ++ "/.*".data := by
  have he := escape_star_free hstar
  have hlds : dsSlashMarker.length = 22 := by decide
  have hlsds : slashDsMarker.length = 22 := by decide
  have hldsm : dsMarker.length = 16 := by decide
  unfold pipe
  rw [escapeRegex_append, show escapeRegex "/**".data = "/**".data from by decide]
  rw [replaceAll_shift_star0 "**/".data dsSlashMarker ("*/".data) rfl "/**".data _ he,
    show replaceAll "**/".data dsSlashMarker "/**".data = "/**".data from by decide]
  rw [replaceAll_shift_star1 "/**".data slashDsMarker '/' ("*".data) rfl "/**".data
      (by decide) _ he,
    show replaceAll "/**".data slashDsMarker "/**".data = slashDsMarker from by decide]
  rw [replaceAll_shift_star0 "**".data dsMarker ("*".data) rfl slashDsMarker _ he,
    show replaceAll "**".data dsMarker slashDsMarker = slashDsMarker from by decide]
  rw [replaceAll_shift_star0 "*".data "[^/]*".data [] rfl slashDsMarker _ he,
    show replaceAll "*".data "[^/]*".data slashDsMarker = slashDsMarker from by decide]
  rw [replaceAll_shift_clean dsSlashMarker "(?:.*/)?".data (by decide) slashDsMarker _
      (no_marker_in_escape hD ⟨"___".data, "_SLASH___".data, by decide⟩)
      (fun k hk0 hklt hpre =>
        no_take_in_escape hD (marker_prefix_take_ds k (by omega) hk0 hpre)),
    show replaceAll dsSlashMarker "(?:.*/)?".data slashDsMarker = slashDsMarker
      from by decide]
  rw [replaceAll_shift_clean slashDsMarker "/.*".data (by decide) slashDsMarker _
      (no_marker_in_escape hD ⟨"___SLASH_".data, "___".data, by decide⟩)
      (fun k hk0 hklt hpre =>
        no_take_in_escape hD (marker_prefix_take_sds k (by omega) hk0 hpre)),
    show replaceAll slashDsMarker "/.*".data slashDsMarker = "/.*".data from by decide]
  rw [replaceAll_shift_clean dsMarker ".*".data (by decide) "/.*".data _
      (no_marker_in_escape hD ⟨"___".data, "___".data, by decide⟩)
      (fun k hk0 hklt hpre => by
        rw [marker_prefix_take_dsm k (by omega)] at hpre
        exact absurd hpre (by decide)),
    show replaceAll dsMarker ".*".data "/.*".data = "/.*".data from by decide]

/-! ## Parsing and semantics of the compiled regex for `d/**` -/

theorem pstep_plain_lit (c : Char) (h1 : c ∉ metaChars) (h2 : ¬ c = '*')
    (cur : List Reg) (stk : List (List Reg)) :
    pstep (some ⟨.normal, cur, stk⟩) c = some ⟨.normal, .lit c :: cur, stk⟩ := by
  have hne : ∀ x ∈ metaChars, ¬ c = x := fun x hx h => h1 (h ▸ hx)
  show normalStep ⟨.normal, cur, stk⟩ c = _
  rw [normalStep]
  rw [if_neg (hne '\\' (by decide)), if_neg (hne '[' (by decide)),
    if_neg (hne '(' (by decide)), if_neg (hne ')' (by decide)),
    if_neg h2, if_neg (hne '?' (by decide)), if_neg (hne '+' (by decide)),
    if_neg (hne '.' (by decide)), if_neg ?hors]
  case hors =>
    rintro (h | h | h | h | h)
    · exact hne '^' (by decide) h
    · exact hne '$' (by decide) h
    · exact hne '|' (by decide) h
    · exact hne '\x7b' (by decide) h
    · exact hne '\x7d' (by decide) h

theorem foldl_escape (d : List Char) (hstar : ∀ c ∈ d, ¬ c = '*') :
    ∀ (cur : List Reg) (stk : List (List Reg)),
      (escapeRegex d).foldl pstep (some ⟨.normal, cur, stk⟩) =
        some ⟨.normal, (d.map Reg.lit).reverse ++ cur, stk⟩ := by
  induction d with
  | nil => intro cur stk; rfl
  | cons c d' ih =>
    intro cur stk
    rw [escapeRegex_cons, List.foldl_append]
    by_cases hm : c ∈ metaChars
    · rw [if_pos hm]
      rw [show (['\\', c].foldl pstep (some ⟨.normal, cur, stk⟩)) =
          some ⟨.normal, .lit c :: cur, stk⟩ from rfl]
      rw [ih (fun x hx => hstar x (by simp [hx])) (.lit c :: cur) stk]
      simp

    · rw [if_neg hm]
      have hp := pstep_plain_lit c hm (hstar c (by simp)) cur stk
      rw [show ([c].foldl pstep (some ⟨.normal, cur, stk⟩)) =
          pstep (some ⟨.normal, cur, stk⟩) c from rfl, hp]
      rw [ih (fun x hx => hstar x (by simp [hx])) (.lit c :: cur) stk]
      simp

theorem compile_dir (d : List Char) (hstar : ∀ c ∈ d, ¬ c = '*')
    (hD : occursIn "DOUBLESTAR".data d = false) :
    compileRegex (toRegexChars (d ++ "/**".data)) =
      some (catList (d.map Reg.lit ++ [Reg.lit '/', Reg.star Reg.dot])) := by
  rw [toRegexChars_eq, compileRegex_eq _ (List.getLast?_concat _),
    List.dropLast_concat, pipe_dir d hstar hD]
  show parseFinish
    ((escapeRegex d ++ "/.*".data).foldl pstep (some ⟨.normal, [], []⟩)) = _
  rw [List.foldl_append, foldl_escape d hstar [] []]
  rw [show ("/.*".data.foldl pstep
      (some ⟨.normal, (d.map Reg.lit).reverse ++ [], []⟩)) =
      some ⟨.normal,
        .star .dot :: .lit '/' :: ((d.map Reg.lit).reverse ++ []), []⟩ from rfl]
  have hX : (Reg.star Reg.dot :: Reg.lit '/' ::
      ((d.map Reg.lit).reverse ++ ([] : List Reg))).reverse =
      d.map Reg.lit ++ [Reg.lit '/', Reg.star Reg.dot] := by
    simp
  rw [show parseFinish (some ⟨.normal,
      Reg.star Reg.dot :: Reg.lit '/' :: ((d.map Reg.lit).reverse ++ []), []⟩) =
      some (catList ((Reg.star Reg.dot :: Reg.lit '/' ::
        ((d.map Reg.lit).reverse ++ ([] : List Reg))).reverse)) from rfl, hX]

theorem lang_catList_lits (xs : List Char) (rest : List Reg) :
    ∀ s, Lang (catList (xs.map Reg.lit ++ rest)) s ↔
      ∃ v, s = xs ++ v ∧ Lang (catList rest) v := by
  induction xs with
  | nil =>
    intro s
    constructor
    · intro h; exact ⟨s, rfl, h⟩
    · rintro ⟨v, rfl, h⟩; exact h
  | cons x xs2 ih =>
    intro s
    constructor
    · intro h
      obtain ⟨u, v, rfl, hu, hv⟩ := h
      have hx : u = [x] := hu
      subst hx
      obtain ⟨w, rfl, hw⟩ := (ih v).mp hv
      exact ⟨w, by simp, hw⟩
    · rintro ⟨v, rfl, h⟩
      exact ⟨[x], xs2 ++ v, by simp, rfl, (ih _).mpr ⟨v, rfl, h⟩⟩

theorem lang_star_dot :
    ∀ s, Lang (Reg.star Reg.dot) s ↔ ∀ c ∈ s, isLineTerm c = false := by
  intro s
  constructor
  · intro h
    have h2 : Star (Lang Reg.dot) s := h
    clear h
    induction h2 with
    | nil => intro c hc; cases hc
    | app u v hu hv ih =>
      intro c hc
      obtain ⟨c2, hueq, hlt⟩ := hu
      subst hueq
      rcases List.mem_append.mp hc with hc | hc
      · rw [List.mem_singleton.mp hc]
        exact hlt
      · exact ih c hc
  · intro h
    induction s with
    | nil => exact Star.nil
    | cons c cs ih =>
      exact Star.app [c] cs ⟨c, rfl, h c (by simp)⟩
        (ih fun x hx => h x (by simp [hx]))

theorem lang_tail (s : List Char) :
    Lang (catList [Reg.lit '/', Reg.star Reg.dot]) s ↔
      ∃ v, s = '/' :: v ∧ ∀ c ∈ v, isLineTerm c = false := by
  constructor
  · intro h
    obtain ⟨u, v, rfl, hu, hv⟩ := h
    have hueq : u = ['/'] := hu
    subst hueq
    obtain ⟨v1, v2, rfl, hv1, hv2⟩ := hv
    have hv2eq : v2 = [] := hv2
    subst hv2eq
    exact ⟨v1, by simp, (lang_star_dot v1).mp hv1⟩
  · rintro ⟨v, rfl, h⟩
    exact ⟨['/'], v, rfl, rfl, v, [], by simp, (lang_star_dot v).mpr h, rfl⟩

/-- C10 (amended): for a non-empty directory name `d` with no glob
metacharacter and no collision with the internal `DOUBLESTAR` markers, the
exclusion pattern `d/**` does not match the bare path `d` itself — the
translated regex demands a `/` after `d` — while it does match `d/name` for
every immediate entry whose name contains no line terminator (JS `.`, and
hence the `.*` the translation emits, does not match line terminators). -/
theorem c10_dir_pattern_boundary (d name : String) (hne : d ≠ "")
    (hstar : ∀ c ∈ d.data, ¬ c = '*')
    (hD : strIncludes d "DOUBLESTAR" = false) :
    matchPattern d (d ++ "/**") = some false ∧
    ((∀ c ∈ name.data, isLineTerm c = false) →
      matchPattern (d ++ "/" ++ name) (d ++ "/**") = some true) := by
  have hD2 : occursIn "DOUBLESTAR".data d.data = false := hD
  have hcomp := compile_dir d.data hstar hD2
  have hdata : (d ++ "/**").data = d.data ++ "/**".data := data_append d "/**"
  constructor
  · unfold matchPattern
    rw [hdata, hcomp]
    show some (rmatch (catList (d.data.map Reg.lit ++
      [Reg.lit '/', Reg.star Reg.dot])) d.data) = some false
    have hm : rmatch (catList (d.data.map Reg.lit ++
        [Reg.lit '/', Reg.star Reg.dot])) d.data = false := by
      cases hr : rmatch (catList (d.data.map Reg.lit ++
          [Reg.lit '/', Reg.star Reg.dot])) d.data with
      | false => rfl
      | true =>
        have hl := (rmatch_iff _ _).mp hr
        obtain ⟨v, heq, hv⟩ := (lang_catList_lits d.data _ d.data).mp hl
        obtain ⟨w, hveq, -⟩ := (lang_tail v).mp hv
        subst hveq
        have hlen := congrArg List.length heq
        simp [List.length_append] at hlen
    rw [hm]
  · intro hname
    unfold matchPattern
    rw [hdata, hcomp]
    show some (rmatch (catList (d.data.map Reg.lit ++
      [Reg.lit '/', Reg.star Reg.dot])) (d ++ "/" ++ name).data) = some true
    have hdata2 : (d ++ "/" ++ name).data = d.data ++ '/' :: name.data := by
      rw [data_append, data_append]
      simp
    have hm : rmatch (catList (d.data.map Reg.lit ++
        [Reg.lit '/', Reg.star Reg.dot])) (d.data ++ '/' :: name.data) = true := by
      rw [rmatch_iff]
      refine (lang_catList_lits d.data _ _).mpr ⟨'/' :: name.data, rfl, ?_⟩
      exact (lang_tail _).mpr ⟨name.data, rfl, hname⟩
    rw [hdata2, hm]

/-- C10 counterexample: the original claim's final clause fails. With
`d = "node_modules"` (non-empty, no glob metacharacters) the walk does enter
`d` (the pattern does not match the bare path), but the immediate entry named
`"a\nb"` is NOT individually excluded: `d/**` translates to `^d/.*$` and JS
`.` does not match the newline, so `matchPattern` returns `false` for it. -/
theorem c10_counterexample :
    ("node_modules" : String) ≠ "" ∧
    (∀ c ∈ ("node_modules" : String).data, ¬ c = '*') ∧
    matchPattern "node_modules" ("node_modules" ++ "/**") = some false ∧
    matchPattern ("node_modules" ++ "/" ++ "a\nb") ("node_modules" ++ "/**") =
      some false :=
  ⟨by decide, by decide, by decide, by decide⟩

/-- C10 witness -/
theorem c10_witness :
    matchPattern "node_modules" ("node_modules" ++ "/**") = some false ∧
    matchPattern ("node_modules" ++ "/" ++ "lib.js") ("node_modules" ++ "/**") =
      some true := by
  have h := c10_dir_pattern_boundary "node_modules" "lib.js" (by decide)
    (by decide) (by decide)
  exact ⟨h.1, h.2 (by decide)⟩

end PhasetMCP
